import Mathlib

/-!
Verification of the `eater-rangeset` library (`src/lib.rs`, `src/internal.rs`,
`src/conversions.rs`): a set-of-ranges abstraction over a totally ordered
scalar type.  The definitions below are a shallow embedding of the Rust
source; theorems about the spec's claims follow the definitions.

Conventions of the embedding:
* Rust's `std::ops::Bound` is `Bound` below, with the same constructors.
* `Range { start, end }` becomes `Range` with fields `start` and `endB`
  (`end` is a Lean keyword).
* `Ord::cmp` on the scalar type is Lean's `compare` of a `LinearOrder`.
* Mutating methods become functions returning the new value; the `&mut self`
  state of `LinearRangeAdder` is threaded explicitly, and `add` returns the
  pair (new state, returned flag).
* Loops with `break`/`continue` become structural recursions with the same
  branch structure; `debug_assert!` has no release-mode semantics and is not
  modelled.
-/

namespace Rangeset

universe u

/-- Mirror of `std::ops::Bound`: an interval endpoint. -/
inductive Bound (α : Type u) where
  | Included : α → Bound α
  | Excluded : α → Bound α
  | Unbounded : Bound α
deriving DecidableEq

/-- Mirror of `BoundExt::invert` (lib.rs): flips `Included` and `Excluded`. -/
def Bound.invert {α : Type u} : Bound α → Bound α
  | .Unbounded => .Unbounded
  | .Excluded v => .Included v
  | .Included v => .Excluded v

/-- Mirror of `Range<T>` (lib.rs): a range between two bounds.  The Rust field
`end` is called `endB` here. -/
structure Range (α : Type u) where
  start : Bound α
  endB : Bound α
deriving DecidableEq

/-- Mirror of `PositionalBound<T>` (lib.rs): a bound tagged with whether it is
the start or the end bound of its range. -/
inductive PositionalBound (α : Type u) where
  | Start : Bound α → PositionalBound α
  | End : Bound α → PositionalBound α
deriving DecidableEq

variable {α : Type u} [LinearOrder α]

/-- Mirror of `impl Ord for PositionalBound<T>` (lib.rs lines 528-579).  Each
match arm is translated in order; Rust guard clauses become `if` tests. -/
def PositionalBound.cmp : PositionalBound α → PositionalBound α → Ordering
  | .Start l, .End r =>
    match l, r with
    | .Included a, .Included b => if a ≤ b then .lt else .gt
    | .Included a, .Excluded b => compare a b
    | .Excluded a, .Included b => if a ≥ b then .gt else .lt
    | .Excluded a, .Excluded b => if a ≥ b then .gt else .lt
    | _, _ => .lt
  | .Start l, .Start r =>
    if l = r then .eq
    else
      match l, r with
      | .Unbounded, _ => .lt
      | _, .Unbounded => .gt
      | .Included a, .Included b => compare a b
      | .Excluded a, .Excluded b => compare a b
      | .Included a, .Excluded b => if a > b then .gt else .lt
      | .Excluded a, .Included b => if a ≥ b then .gt else .lt
  | .End l, .Start r =>
    match l, r with
    | .Included a, .Included b => if a < b then .lt else .gt
    | .Included a, .Excluded b => if a > b then .gt else .lt
    | .Excluded a, .Included b => compare a b
    | .Excluded a, .Excluded b => if a ≤ b then .lt else .gt
    | _, _ => .gt
  | .End l, .End r =>
    if l = r then .eq
    else
      match l, r with
      | .Unbounded, _ => .gt
      | _, .Unbounded => .lt
      | .Included a, .Included b => compare a b
      | .Excluded a, .Excluded b => compare a b
      | .Included a, .Excluded b => if a ≥ b then .gt else .lt
      | .Excluded a, .Included b => if a > b then .gt else .lt

/-- Mirror of `impl PartialEq<T> for PositionalBound<T>` (lib.rs lines
582-587): a positional bound never equals a scalar. -/
def PositionalBound.eqVal (_ : PositionalBound α) (_ : α) : Bool :=
  false

/-- Mirror of `impl PartialOrd<T> for PositionalBound<T>` (lib.rs lines
589-601): the `cmp` local variable computed there (the Rust code returns
`Some cmp`, see `PositionalBound.partialCmpVal`). -/
def PositionalBound.cmpVal : PositionalBound α → α → Ordering
  | .Start .Unbounded, _ => .lt
  | .End .Unbounded, _ => .gt
  | .Start (.Included l), x => if l ≤ x then .lt else .gt
  | .End (.Excluded l), x => if l ≤ x then .lt else .gt
  | .End (.Included l), x => if l < x then .lt else .gt
  | .Start (.Excluded l), x => if l < x then .lt else .gt

/-- Mirror of the full `partial_cmp` against a scalar: always `some`. -/
def PositionalBound.partialCmpVal (b : PositionalBound α) (x : α) :
    Option Ordering :=
  some (b.cmpVal x)

/-- Mirror of `Range::new`. -/
def Range.new (lo hi : Bound α) : Range α :=
  ⟨lo, hi⟩

/-- Mirror of `Range::unbound`: the full-domain range. -/
def Range.unbound : Range α :=
  ⟨.Unbounded, .Unbounded⟩

/-- Mirror of `Range::start_pos`. -/
def Range.start_pos (r : Range α) : PositionalBound α :=
  .Start r.start

/-- Mirror of `Range::end_pos`. -/
def Range.end_pos (r : Range α) : PositionalBound α :=
  .End r.endB

/-- Mirror of `Range::is_unbound`. -/
def Range.is_unbound (r : Range α) : Bool :=
  decide (r.start = .Unbounded) && decide (r.endB = .Unbounded)

/-- Mirror of `Range::contains`: `start_pos < item && end_pos > item`, where
`<`/`>` are the `PartialOrd<T>` comparisons. -/
def Range.contains (r : Range α) (item : α) : Bool :=
  decide (r.start_pos.cmpVal item = .lt) && decide (r.end_pos.cmpVal item = .gt)

/-- Mirror of `RangeSet<T>` (lib.rs): a list of ranges. -/
structure RangeSet (α : Type u) where
  items : List (Range α)
deriving DecidableEq

/-- Mirror of `RangeSet::empty` (capacity is irrelevant to the model). -/
def RangeSet.empty : RangeSet α :=
  ⟨[]⟩

/-- Mirror of `RangeSet::unbound`. -/
def RangeSet.unbound : RangeSet α :=
  ⟨[Range.unbound]⟩

/-- Mirror of `RangeSet::is_empty`. -/
def RangeSet.is_empty (s : RangeSet α) : Bool :=
  s.items.isEmpty

/-- Mirror of `RangeSet::is_unbound`: exactly one item and it is unbounded. -/
def RangeSet.is_unbound (s : RangeSet α) : Bool :=
  match s.items with
  | [x] => x.is_unbound
  | _ => false

/-- Mirror of `RangeSet::contains` (lib.rs lines 97-110): scan the items; if
an item's start is below `other` and its end above, succeed; keep scanning
while starts are below; `break` (fail) at the first start not below. -/
def containsLoop (x : α) : List (Range α) → Bool
  | [] => false
  | r :: rest =>
    if r.start_pos.cmpVal x = .lt then
      if r.end_pos.cmpVal x = .gt then true else containsLoop x rest
    else
      false

/-- Mirror of `RangeSet::contains`. -/
def RangeSet.contains (s : RangeSet α) (x : α) : Bool :=
  containsLoop x s.items

/-- Mirror of `LinearRangeAdder<T>` (internal.rs): finished output plus the
pending range still being extended. -/
structure LinearRangeAdder (α : Type u) where
  items : List (Range α)
  last : Option (Range α)

/-- Tests whether the pending range (if any) has an unbounded upper bound
(the condition `x.end == Bound::Unbounded` used twice in `add`). -/
def lastUnb : Option (Range α) → Bool
  | some x => decide (x.endB = Bound.Unbounded)
  | none => false

/-- Mirror of `LinearRangeAdder::add` (internal.rs lines 30-53).  Returns the
new state together with the Rust return value. -/
def LinearRangeAdder.add (a : LinearRangeAdder α) (range : Range α) :
    LinearRangeAdder α × Bool :=
  if lastUnb a.last then (a, true)
  else
    let a1 : LinearRangeAdder α :=
      match a.last with
      | none => { a with last := some range }
      | some v =>
        if v.end_pos.cmp range.start_pos = .lt then
          { items := a.items ++ [v], last := some range }
        else if range.end_pos.cmp v.end_pos = .gt then
          { items := a.items, last := some { v with endB := range.endB } }
        else
          { items := a.items, last := some v }
    (a1, lastUnb a1.last)

/-- State after `LinearRangeAdder::add`, discarding the returned flag. -/
def addA (a : LinearRangeAdder α) (range : Range α) : LinearRangeAdder α :=
  (a.add range).1

/-- Mirror of `LinearRangeAdder::finalize`. -/
def LinearRangeAdder.finalize (a : LinearRangeAdder α) : RangeSet α :=
  match a.last with
  | some v => ⟨a.items ++ [v]⟩
  | none => ⟨a.items⟩

/-- Fresh adder, as built by `LinearRangeAdder::new`. -/
def adderInit : LinearRangeAdder α :=
  ⟨[], none⟩

/-- Folding a whole input list through the adder, ignoring the flags (the
`From<Vec<Range<T>>>` conversion does exactly this). -/
def foldAdd (a : LinearRangeAdder α) (l : List (Range α)) : LinearRangeAdder α :=
  l.foldl addA a

/-- Mirror of the loop inside `RangeSet::add` (lib.rs lines 149-163): walk
the existing items; once the new range's start is below the current item's
start, feed the new range first; feed the item; `break` whenever `add`
returns true.  Returns the adder state and the not-yet-consumed new range. -/
def addLoop (a : LinearRangeAdder α) (range : Option (Range α)) :
    List (Range α) → LinearRangeAdder α × Option (Range α)
  | [] => (a, range)
  | item :: rest =>
    match range with
    | some r =>
      if r.start_pos.cmp item.start_pos = .lt then
        let p1 := a.add r
        if p1.2 then (p1.1, none)
        else
          let p2 := p1.1.add item
          if p2.2 then (p2.1, none) else addLoop p2.1 none rest
      else
        let p2 := a.add item
        if p2.2 then (p2.1, some r) else addLoop p2.1 (some r) rest
    | none =>
      let p2 := a.add item
      if p2.2 then (p2.1, none) else addLoop p2.1 none rest

/-- The adder state `RangeSet::add` ends with in its general case: run the
loop, then flush the new range if it was never consumed (the final
`if let Some(r) = range { adder.add(r); }`). -/
def addLoopRes (a : LinearRangeAdder α) (r : Range α)
    (items : List (Range α)) : LinearRangeAdder α :=
  match addLoop a (some r) items with
  | (a2, some r2) => (a2.add r2).1
  | (a2, none) => a2

/-- Mirror of `RangeSet::add` (lib.rs lines 125-170). -/
def RangeSet.add (s : RangeSet α) (range : Range α) : RangeSet α :=
  if s.is_unbound then s
  else if range.is_unbound then ⟨[range]⟩
  else if s.is_empty then ⟨s.items ++ [range]⟩
  else ⟨(addLoopRes adderInit range s.items).finalize.items⟩

/-- Mirror of the two-pointer merge loop of `RangeSet::union` (lib.rs lines
205-239): feed whichever head has the smaller start into the adder, `break`
when `add` returns true. -/
def unionLoop (a : LinearRangeAdder α) :
    List (Range α) → List (Range α) → LinearRangeAdder α
  | [], [] => a
  | l :: ls, r :: rs =>
    if r.start_pos.cmp l.start_pos = .lt then
      let p := a.add r
      if p.2 then p.1 else unionLoop p.1 (l :: ls) rs
    else
      let p := a.add l
      if p.2 then p.1 else unionLoop p.1 ls (r :: rs)
  | l :: ls, [] =>
    let p := a.add l
    if p.2 then p.1 else unionLoop p.1 ls []
  | [], r :: rs =>
    let p := a.add r
    if p.2 then p.1 else unionLoop p.1 [] rs
termination_by ls rs => ls.length + rs.length

/-- Mirror of `RangeSet::union` (lib.rs lines 186-242).  The Rust line
`if self.is_unbound() || other.is_unbound() {}` has an empty body and no
effect, so it is not modelled. -/
def RangeSet.union (s other : RangeSet α) : RangeSet α :=
  if other.is_empty then s
  else if s.is_empty then other
  else (unionLoop adderInit s.items other.items).finalize

/-- Mirror of the loop of `RangeSet::invert` (lib.rs lines 267-280). -/
def invertLoop (acc : List (Range α)) (current : Range α) :
    List (Range α) → List (Range α)
  | [] => acc ++ [current]
  | item :: rest =>
    if item.start = .Unbounded then
      invertLoop acc { current with start := item.endB.invert } rest
    else
      let last := { current with endB := item.start.invert }
      let acc1 := acc ++ [last]
      let current1 : Range α := ⟨item.endB.invert, .Unbounded⟩
      if item.endB = .Unbounded then acc1
      else invertLoop acc1 current1 rest

/-- Mirror of `RangeSet::invert` (lib.rs lines 255-284). -/
def RangeSet.invert (s : RangeSet α) : RangeSet α :=
  if s.is_empty then RangeSet.unbound
  else if s.is_unbound then RangeSet.empty
  else ⟨invertLoop [] Range.unbound s.items⟩

/-- Mirror of `RangeSet::intersection` (lib.rs lines 298-304). -/
def RangeSet.intersection (s rhs : RangeSet α) : RangeSet α :=
  (s.invert.union rhs.invert).invert

/-- Mirror of `RangeSet::difference` (lib.rs lines 320-325). -/
def RangeSet.difference (s rhs : RangeSet α) : RangeSet α :=
  (s.invert.union rhs).invert

/-- Mirror of the two-pointer loop of `RangeSet::is_disjoint` (lib.rs lines
343-367).  Note `r.start_pos() == l.start_pos()` is the derived structural
equality, while `<`, `>=` use `PositionalBound::cmp`. -/
def disjointLoop : List (Range α) → List (Range α) → Bool
  | l :: ls, r :: rs =>
    if r.start_pos = l.start_pos then false
    else if r.start_pos.cmp l.start_pos = .lt then
      if ¬ (r.end_pos.cmp l.end_pos = .lt) then false
      else disjointLoop (l :: ls) rs
    else
      if r.start_pos.cmp l.end_pos = .lt then false
      else disjointLoop ls (r :: rs)
  | _, _ => true
termination_by ls rs => ls.length + rs.length

/-- Mirror of `RangeSet::is_disjoint` (lib.rs lines 328-370). -/
def RangeSet.is_disjoint (s rhs : RangeSet α) : Bool :=
  if s.is_empty || rhs.is_empty then true
  else if s.is_unbound || rhs.is_unbound then false
  else disjointLoop s.items rhs.items

/-- Mirror of the two-pointer loop of `RangeSet::is_overlapping` (lib.rs
lines 388-408). -/
def overlapLoop : List (Range α) → List (Range α) → Bool
  | l :: ls, r :: rs =>
    if ¬ (l.start_pos.cmp r.start_pos = .lt) then
      if l.start_pos.cmp r.end_pos = .lt then true
      else overlapLoop (l :: ls) rs
    else
      if l.end_pos.cmp r.start_pos = .gt then true
      else overlapLoop ls (r :: rs)
  | _, _ => false
termination_by ls rs => ls.length + rs.length

/-- Mirror of `RangeSet::is_overlapping` (lib.rs lines 373-411). -/
def RangeSet.is_overlapping (s rhs : RangeSet α) : Bool :=
  if s.is_empty || rhs.is_empty then false
  else if s.is_unbound || rhs.is_unbound then true
  else overlapLoop s.items rhs.items

/-- Comparator used by `From<Vec<Range<T>>>`'s `sort_by` call
(conversions.rs): ascending by `start_pos` under `PositionalBound::cmp`. -/
def startLe (a b : Range α) : Bool :=
  decide (¬ a.start_pos.cmp b.start_pos = .gt)

/-- Mirror of `impl From<Vec<Range<T>>> for RangeSet<T>` (conversions.rs):
stable-sort by start position, then feed everything through a fresh
`LinearRangeAdder` (ignoring the returned flags) and finalize. -/
def RangeSet.fromRanges (l : List (Range α)) : RangeSet α :=
  (foldAdd adderInit (l.mergeSort startLe)).finalize

/-!
Cut points.  `PositionalBound.cmp` turns out to coincide with the order of
abstract "cut points": `Start Unbounded` sits below everything, `End
Unbounded` above everything, and a finite bound sits at its value with a
small offset recording on which side of the value the cut falls.  `Start
(Included a)` and `End (Excluded a)` are the same cut (offset 0, just below
`a`); a scalar `a` itself sits at offset 1; `End (Included a)` at offset 2
(just above `a`); `Start (Excluded a)` at offset 4 — strictly above `End
(Included a)`, which is why an inclusive end touching an exclusive start at
the same value is treated as a gap by the comparator.
-/

/-- Cut points of the ordered domain: bottom, a value with a side offset, and
top. -/
inductive Cut (α : Type u) where
  | bot : Cut α
  | mid : α → ℕ → Cut α
  | top : Cut α
deriving DecidableEq

/-- Strict order on cut points: `bot` first, then values lexicographically by
value then offset, then `top`. -/
def cutLt : Cut α → Cut α → Prop
  | .bot, .bot => False
  | .bot, _ => True
  | _, .bot => False
  | .top, _ => False
  | _, .top => True
  | .mid a s, .mid b t => a < b ∨ (a = b ∧ s < t)

instance cutLtDec : ∀ c d : Cut α, Decidable (cutLt c d)
  | .bot, .bot => isFalse (fun h => h)
  | .bot, .mid _ _ => isTrue trivial
  | .bot, .top => isTrue trivial
  | .mid _ _, .bot => isFalse (fun h => h)
  | .top, .bot => isFalse (fun h => h)
  | .top, .mid _ _ => isFalse (fun h => h)
  | .top, .top => isFalse (fun h => h)
  | .mid _ _, .top => isTrue trivial
  | .mid a s, .mid b t => inferInstanceAs (Decidable (_ ∨ _))

/-- Reflexive closure of `cutLt`. -/
def cutLe (c d : Cut α) : Prop :=
  cutLt c d ∨ c = d

instance cutLeDec (c d : Cut α) : Decidable (cutLe c d) :=
  inferInstanceAs (Decidable (_ ∨ _))

theorem cutLt_irrefl (c : Cut α) : ¬ cutLt c c := by
  cases c <;> simp [cutLt]

theorem cutLt_trans {c d e : Cut α} (h1 : cutLt c d) (h2 : cutLt d e) :
    cutLt c e := by
  cases c <;> cases d <;> cases e <;> simp_all [cutLt]
  rcases h1 with h1 | ⟨rfl, h1⟩
  · rcases h2 with h2 | ⟨rfl, h2⟩
    · exact Or.inl (h1.trans h2)
    · exact Or.inl h1
  · rcases h2 with h2 | ⟨rfl, h2⟩
    · exact Or.inl h2
    · exact Or.inr ⟨rfl, h1.trans h2⟩

theorem cutLt_asymm {c d : Cut α} (h : cutLt c d) : ¬ cutLt d c :=
  fun h2 => cutLt_irrefl c (cutLt_trans h h2)

theorem cutLt_trichotomy (c d : Cut α) : cutLt c d ∨ c = d ∨ cutLt d c := by
  cases c with
  | bot =>
    cases d with
    | bot => exact Or.inr (Or.inl rfl)
    | mid b t => exact Or.inl trivial
    | top => exact Or.inl trivial
  | top =>
    cases d with
    | bot => exact Or.inr (Or.inr trivial)
    | mid b t => exact Or.inr (Or.inr trivial)
    | top => exact Or.inr (Or.inl rfl)
  | mid a s =>
    cases d with
    | bot => exact Or.inr (Or.inr trivial)
    | top => exact Or.inl trivial
    | mid b t =>
      rcases lt_trichotomy a b with h | rfl | h
      · exact Or.inl (Or.inl h)
      · rcases Nat.lt_trichotomy s t with h | rfl | h
        · exact Or.inl (Or.inr ⟨rfl, h⟩)
        · exact Or.inr (Or.inl rfl)
        · exact Or.inr (Or.inr (Or.inr ⟨rfl, h⟩))
      · exact Or.inr (Or.inr (Or.inl h))

theorem cutLe_refl (c : Cut α) : cutLe c c :=
  Or.inr rfl

theorem cutLe_of_lt {c d : Cut α} (h : cutLt c d) : cutLe c d :=
  Or.inl h

theorem cutLt_of_le_of_lt {c d e : Cut α} (h1 : cutLe c d) (h2 : cutLt d e) :
    cutLt c e := by
  rcases h1 with h1 | rfl
  · exact cutLt_trans h1 h2
  · exact h2

theorem cutLt_of_lt_of_le {c d e : Cut α} (h1 : cutLt c d) (h2 : cutLe d e) :
    cutLt c e := by
  rcases h2 with h2 | rfl
  · exact cutLt_trans h1 h2
  · exact h1

theorem cutLe_trans {c d e : Cut α} (h1 : cutLe c d) (h2 : cutLe d e) :
    cutLe c e := by
  rcases h1 with h1 | rfl
  · exact cutLe_of_lt (cutLt_of_lt_of_le h1 h2)
  · exact h2

theorem cutLe_antisymm {c d : Cut α} (h1 : cutLe c d) (h2 : cutLe d c) :
    c = d := by
  rcases h1 with h1 | rfl
  · rcases h2 with h2 | rfl
    · exact absurd h2 (cutLt_asymm h1)
    · rfl
  · rfl

theorem cutLe_total (c d : Cut α) : cutLe c d ∨ cutLe d c := by
  rcases cutLt_trichotomy c d with h | rfl | h
  · exact Or.inl (cutLe_of_lt h)
  · exact Or.inl (cutLe_refl c)
  · exact Or.inr (cutLe_of_lt h)

theorem not_cutLt_iff {c d : Cut α} : ¬ cutLt c d ↔ cutLe d c := by
  constructor
  · intro h
    rcases cutLt_trichotomy c d with h1 | rfl | h1
    · exact absurd h1 h
    · exact cutLe_refl c
    · exact cutLe_of_lt h1
  · intro h h2
    exact cutLt_irrefl d (cutLt_of_le_of_lt h h2)

theorem cutLt_iff_not_le {c d : Cut α} : cutLt c d ↔ ¬ cutLe d c := by
  constructor
  · intro h hle
    exact cutLt_irrefl c (cutLt_of_lt_of_le h hle)
  · intro h
    rcases cutLt_trichotomy c d with h1 | rfl | h1
    · exact h1
    · exact absurd (cutLe_refl c) h
    · exact absurd (cutLe_of_lt h1) h

/-- The cut point of a role-tagged bound. -/
def kappa : PositionalBound α → Cut α
  | .Start .Unbounded => .bot
  | .End .Unbounded => .top
  | .Start (.Included a) => .mid a 0
  | .End (.Excluded a) => .mid a 0
  | .End (.Included a) => .mid a 2
  | .Start (.Excluded a) => .mid a 4

/-- The cut point of a scalar value: strictly between `mid a 0` and
`mid a 2`. -/
def iota (x : α) : Cut α :=
  .mid x 1

/-- Comparison of cut points as an `Ordering`. -/
def cutCmp (c d : Cut α) : Ordering :=
  if cutLt c d then .lt else if c = d then .eq else .gt

theorem cutCmp_eq_lt {c d : Cut α} : cutCmp c d = .lt ↔ cutLt c d := by
  unfold cutCmp
  split_ifs with h1 h2 <;> simp_all

theorem cutCmp_eq_eq {c d : Cut α} : cutCmp c d = .eq ↔ c = d := by
  unfold cutCmp
  split_ifs with h1 h2 <;> simp_all
  rintro rfl
  exact cutLt_irrefl c h1

theorem cutCmp_eq_gt {c d : Cut α} : cutCmp c d = .gt ↔ cutLt d c := by
  unfold cutCmp
  constructor
  · intro h
    by_cases h1 : cutLt c d
    · rw [if_pos h1] at h
      cases h
    · rw [if_neg h1] at h
      by_cases h2 : c = d
      · rw [if_pos h2] at h
        cases h
      · rcases cutLt_trichotomy c d with h3 | h3 | h3
        · exact absurd h3 h1
        · exact absurd h3 h2
        · exact h3
  · intro h
    rw [if_neg (cutLt_asymm h), if_neg]
    intro he
    subst he
    exact cutLt_irrefl c h

theorem cutCmp_refl (c : Cut α) : cutCmp c c = .eq := by
  rw [cutCmp, if_neg (cutLt_irrefl c), if_pos rfl]

theorem cutCmp_bot_mid (b : α) (t : ℕ) : cutCmp .bot (Cut.mid b t) = .lt := by
  have h : cutLt (Cut.bot) (Cut.mid b t) := trivial
  rw [cutCmp, if_pos h]

theorem cutCmp_bot_top : cutCmp (α := α) .bot .top = .lt := by
  have h : cutLt (Cut.bot (α := α)) .top := trivial
  rw [cutCmp, if_pos h]

theorem cutCmp_mid_top (b : α) (t : ℕ) : cutCmp (Cut.mid b t) .top = .lt := by
  have h : cutLt (Cut.mid b t) .top := trivial
  rw [cutCmp, if_pos h]

theorem cutCmp_mid_bot (b : α) (t : ℕ) : cutCmp (Cut.mid b t) .bot = .gt := by
  have h : ¬ cutLt (Cut.mid b t) .bot := fun h => h
  rw [cutCmp, if_neg h, if_neg (fun h => Cut.noConfusion h)]

theorem cutCmp_top_bot : cutCmp (α := α) .top .bot = .gt := by
  have h : ¬ cutLt (Cut.top (α := α)) .bot := fun h => h
  rw [cutCmp, if_neg h, if_neg (fun h => Cut.noConfusion h)]

theorem cutCmp_top_mid (b : α) (t : ℕ) : cutCmp .top (Cut.mid b t) = .gt := by
  have h : ¬ cutLt (Cut.top) (Cut.mid b t) := fun h => h
  rw [cutCmp, if_neg h, if_neg (fun h => Cut.noConfusion h)]

theorem cutCmp_mid_lt {a b : α} (s t : ℕ) (h : a < b) :
    cutCmp (Cut.mid a s) (Cut.mid b t) = .lt := by
  have h1 : cutLt (Cut.mid a s) (Cut.mid b t) := Or.inl h
  rw [cutCmp, if_pos h1]

theorem cutCmp_mid_gt {a b : α} (s t : ℕ) (h : b < a) :
    cutCmp (Cut.mid a s) (Cut.mid b t) = .gt := by
  have h1 : cutLt (Cut.mid b t) (Cut.mid a s) := Or.inl h
  have h2 : Cut.mid a s ≠ Cut.mid b t := by
    intro he
    cases he
    exact lt_irrefl a h
  rw [cutCmp, if_neg (cutLt_asymm h1), if_neg h2]

theorem cutCmp_mid_tag_lt (a : α) {s t : ℕ} (h : s < t) :
    cutCmp (Cut.mid a s) (Cut.mid a t) = .lt := by
  have h1 : cutLt (Cut.mid a s) (Cut.mid a t) := Or.inr ⟨rfl, h⟩
  rw [cutCmp, if_pos h1]

theorem cutCmp_mid_tag_gt (a : α) {s t : ℕ} (h : t < s) :
    cutCmp (Cut.mid a s) (Cut.mid a t) = .gt := by
  have h1 : cutLt (Cut.mid a t) (Cut.mid a s) := Or.inr ⟨rfl, h⟩
  have h2 : Cut.mid a s ≠ Cut.mid a t := by
    intro he
    cases he
    exact Nat.lt_irrefl _ h
  rw [cutCmp, if_neg (cutLt_asymm h1), if_neg h2]

/-- Helper: `compare` of the scalar order against equal-offset cuts. -/
theorem compare_eq_cutCmp_mid (a b : α) (t : ℕ) :
    compare a b = cutCmp (Cut.mid a t) (Cut.mid b t) := by
  rcases lt_trichotomy a b with h | rfl | h
  · have h1 : cutLt (Cut.mid a t) (Cut.mid b t) := Or.inl h
    rw [compare_lt_iff_lt.mpr h, cutCmp, if_pos h1]
  · rw [compare_eq_iff_eq.mpr rfl, cutCmp,
      if_neg (cutLt_irrefl (Cut.mid a t)), if_pos rfl]
  · have h1 : cutLt (Cut.mid b t) (Cut.mid a t) := Or.inl h
    have h2 : Cut.mid a t ≠ Cut.mid b t := by
      intro he
      cases he
      exact lt_irrefl a h
    rw [compare_gt_iff_gt.mpr h, cutCmp, if_neg (cutLt_asymm h1), if_neg h2]

/-- The role-tagged comparator is exactly the cut-point comparison. -/
theorem cmp_eq_cutCmp (p q : PositionalBound α) :
    p.cmp q = cutCmp (kappa p) (kappa q) := by
  rcases p with b | b <;> rcases q with c | c <;>
    rcases b with a | a | _ <;> rcases c with a2 | a2 | _ <;>
    simp only [PositionalBound.cmp, kappa]
  all_goals try (exact compare_eq_cutCmp_mid a a2 0)
  all_goals
    try (simp [cutCmp_refl, cutCmp_bot_mid, cutCmp_bot_top, cutCmp_mid_top,
      cutCmp_mid_bot, cutCmp_top_bot, cutCmp_top_mid]; done)
  all_goals
    rcases lt_trichotomy a a2 with h | h | h <;>
      simp_all [cutCmp_refl, cutCmp_mid_lt, cutCmp_mid_gt, cutCmp_mid_tag_lt,
        cutCmp_mid_tag_gt, le_of_lt, lt_asymm, ne_of_lt, ne_of_gt,
        not_le_of_lt, lt_irrefl, compare_lt_iff_lt, compare_eq_iff_eq,
        compare_gt_iff_gt]

/-- The comparator against a scalar is exactly the cut-point comparison with
the scalar's own cut. -/
theorem cmpVal_eq_cutCmp (p : PositionalBound α) (x : α) :
    p.cmpVal x = cutCmp (kappa p) (iota x) := by
  rcases p with b | b <;> rcases b with a | a | _ <;>
    simp only [PositionalBound.cmpVal, kappa, iota]
  all_goals
    try (simp [cutCmp_bot_mid, cutCmp_top_mid]; done)
  all_goals
    rcases lt_trichotomy a x with h | h | h <;>
      simp_all [cutCmp_mid_lt, cutCmp_mid_gt, cutCmp_mid_tag_lt,
        cutCmp_mid_tag_gt, le_of_lt, lt_asymm, ne_of_lt, ne_of_gt,
        not_le_of_lt, lt_irrefl]

/-- Shorthand: cut of a range's lower bound in start role. -/
def startCut (r : Range α) : Cut α :=
  kappa r.start_pos

/-- Shorthand: cut of a range's upper bound in end role. -/
def endCut (r : Range α) : Cut α :=
  kappa r.end_pos

theorem cmp_lt_iff {p q : PositionalBound α} :
    p.cmp q = .lt ↔ cutLt (kappa p) (kappa q) := by
  rw [cmp_eq_cutCmp, cutCmp_eq_lt]

theorem cmp_gt_iff {p q : PositionalBound α} :
    p.cmp q = .gt ↔ cutLt (kappa q) (kappa p) := by
  rw [cmp_eq_cutCmp, cutCmp_eq_gt]

theorem cmp_eq_iff {p q : PositionalBound α} :
    p.cmp q = .eq ↔ kappa p = kappa q := by
  rw [cmp_eq_cutCmp, cutCmp_eq_eq]

theorem not_cmp_lt_iff {p q : PositionalBound α} :
    ¬ p.cmp q = .lt ↔ cutLe (kappa q) (kappa p) := by
  rw [cmp_lt_iff, not_cutLt_iff]

theorem cmpVal_lt_iff {p : PositionalBound α} {x : α} :
    p.cmpVal x = .lt ↔ cutLt (kappa p) (iota x) := by
  rw [cmpVal_eq_cutCmp, cutCmp_eq_lt]

theorem cmpVal_gt_iff {p : PositionalBound α} {x : α} :
    p.cmpVal x = .gt ↔ cutLt (iota x) (kappa p) := by
  rw [cmpVal_eq_cutCmp, cutCmp_eq_gt]

/-- A bound's cut is never a scalar's cut (offsets differ). -/
theorem kappa_ne_iota (p : PositionalBound α) (x : α) : kappa p ≠ iota x := by
  rcases p with b | b <;> rcases b with a | a | _ <;> simp [kappa, iota]

/-- The scalar comparator never answers `eq` (`PartialOrd<T>` is total and
strict). -/
theorem cmpVal_ne_eq (p : PositionalBound α) (x : α) : p.cmpVal x ≠ .eq := by
  rw [cmpVal_eq_cutCmp]
  intro h
  exact kappa_ne_iota p x (cutCmp_eq_eq.mp h)

/-- The scalar comparator answers `lt` or `gt`. -/
theorem cmpVal_lt_or_gt (p : PositionalBound α) (x : α) :
    p.cmpVal x = .lt ∨ p.cmpVal x = .gt := by
  rcases h : p.cmpVal x with _ | _ | _
  · exact Or.inl rfl
  · exact absurd h (cmpVal_ne_eq p x)
  · exact Or.inr rfl

/-- `kappa` is injective on start-role bounds. -/
theorem kappa_start_inj {b c : Bound α}
    (h : kappa (.Start b) = kappa (.Start c)) : b = c := by
  rcases b with a | a | _ <;> rcases c with a2 | a2 | _ <;>
    simp_all [kappa]

/-- `kappa` is injective on end-role bounds. -/
theorem kappa_end_inj {b c : Bound α}
    (h : kappa (.End b) = kappa (.End c)) : b = c := by
  rcases b with a | a | _ <;> rcases c with a2 | a2 | _ <;>
    simp_all [kappa]

/-- Between an end cut strictly below a start cut there is always a further
cut point (offsets 1 and 3 are never used by bounds). -/
theorem gap_cut_exists {r1 r2 : Range α}
    (h : cutLt (endCut r1) (startCut r2)) :
    ∃ m : Cut α, cutLt (endCut r1) m ∧ cutLt m (startCut r2) := by
  rcases r1 with ⟨s1, e1⟩
  rcases r2 with ⟨s2, e2⟩
  rcases e1 with a | a | _ <;> rcases s2 with b | b | _
  · rcases (show a < b ∨ (a = b ∧ (2:ℕ) < 0) from h) with h2 | ⟨_, h3⟩
    · exact ⟨Cut.mid a 3, Or.inr ⟨rfl, by omega⟩, Or.inl h2⟩
    · omega
  · rcases (show a < b ∨ (a = b ∧ (2:ℕ) < 4) from h) with h2 | ⟨rfl, _⟩
    · exact ⟨Cut.mid a 3, Or.inr ⟨rfl, by omega⟩, Or.inl h2⟩
    · exact ⟨Cut.mid a 3, Or.inr ⟨rfl, by omega⟩, Or.inr ⟨rfl, by omega⟩⟩
  · exact absurd h (fun h => h)
  · rcases (show a < b ∨ (a = b ∧ (0:ℕ) < 0) from h) with h2 | ⟨_, h3⟩
    · exact ⟨Cut.mid a 1, Or.inr ⟨rfl, by omega⟩, Or.inl h2⟩
    · omega
  · rcases (show a < b ∨ (a = b ∧ (0:ℕ) < 4) from h) with h2 | ⟨rfl, _⟩
    · exact ⟨Cut.mid a 1, Or.inr ⟨rfl, by omega⟩, Or.inl h2⟩
    · exact ⟨Cut.mid a 1, Or.inr ⟨rfl, by omega⟩, Or.inr ⟨rfl, by omega⟩⟩
  · exact absurd h (fun h => h)
  · exact absurd h (fun h => h)
  · exact absurd h (fun h => h)
  · exact absurd h (fun h => h)

/-- Well-formed (nonempty as a cut interval): the start cut is strictly below
the end cut. -/
def WFr (r : Range α) : Prop :=
  cutLt (startCut r) (endCut r)

instance (r : Range α) : Decidable (WFr r) :=
  inferInstanceAs (Decidable (cutLt _ _))

/-- All ranges of a list are well-formed. -/
def WFall : List (Range α) → Prop
  | [] => True
  | r :: rest => WFr r ∧ WFall rest

instance wfallDec : (l : List (Range α)) → Decidable (WFall l)
  | [] => isTrue trivial
  | _ :: rest =>
    have : Decidable (WFall rest) := wfallDec rest
    inferInstanceAs (Decidable (_ ∧ _))

/-- Consecutive ranges are strictly separated in boundary order: each range's
end cut lies strictly below the next range's start cut. -/
def SepChain : List (Range α) → Prop
  | [] => True
  | [_] => True
  | r1 :: r2 :: rest => cutLt (endCut r1) (startCut r2) ∧ SepChain (r2 :: rest)

instance sepChainDec : (l : List (Range α)) → Decidable (SepChain l)
  | [] => isTrue trivial
  | [_] => isTrue trivial
  | _ :: r2 :: rest =>
    have : Decidable (SepChain (r2 :: rest)) := sepChainDec (r2 :: rest)
    inferInstanceAs (Decidable (_ ∧ _))

/-- Start cuts are non-decreasing along the list. -/
def SortedND : List (Range α) → Prop
  | [] => True
  | [_] => True
  | r1 :: r2 :: rest => cutLe (startCut r1) (startCut r2) ∧ SortedND (r2 :: rest)

instance sortedNDDec : (l : List (Range α)) → Decidable (SortedND l)
  | [] => isTrue trivial
  | [_] => isTrue trivial
  | _ :: r2 :: rest =>
    have : Decidable (SortedND (r2 :: rest)) := sortedNDDec (r2 :: rest)
    inferInstanceAs (Decidable (_ ∧ _))

/-- Start cuts are strictly increasing along the list. -/
def SortedStrict : List (Range α) → Prop
  | [] => True
  | [_] => True
  | r1 :: r2 :: rest => cutLt (startCut r1) (startCut r2) ∧ SortedStrict (r2 :: rest)

instance sortedStrictDec : (l : List (Range α)) → Decidable (SortedStrict l)
  | [] => isTrue trivial
  | [_] => isTrue trivial
  | _ :: r2 :: rest =>
    have : Decidable (SortedStrict (r2 :: rest)) := sortedStrictDec (r2 :: rest)
    inferInstanceAs (Decidable (_ ∧ _))

/-- The normalization invariant in boundary-comparator form: consecutive
ranges strictly separated, every range well-formed. -/
def Normalized (s : RangeSet α) : Prop :=
  SepChain s.items ∧ WFall s.items

instance (s : RangeSet α) : Decidable (Normalized s) :=
  inferInstanceAs (Decidable (_ ∧ _))

theorem sepChain_tail {r : Range α} {l : List (Range α)}
    (h : SepChain (r :: l)) : SepChain l := by
  cases l with
  | nil => trivial
  | cons r2 rest => exact h.2

theorem sortedStrict_of_sep_wf :
    ∀ {l : List (Range α)}, SepChain l → WFall l → SortedStrict l
  | [], _, _ => trivial
  | [_], _, _ => trivial
  | r1 :: r2 :: rest, hsep, hwf => by
    refine ⟨?_, sortedStrict_of_sep_wf hsep.2 hwf.2⟩
    exact cutLt_trans hwf.1 hsep.1

theorem sortedND_of_sortedStrict :
    ∀ {l : List (Range α)}, SortedStrict l → SortedND l
  | [], _ => trivial
  | [_], _ => trivial
  | _ :: _ :: _, h => ⟨cutLe_of_lt h.1, sortedND_of_sortedStrict h.2⟩

/-!
Unfolding lemmas for `LinearRangeAdder.add`, phrased through cut points.
-/

theorem not_cutLt_bot (c : Cut α) : ¬ cutLt c .bot := by
  cases c <;> exact fun h => h

theorem cutLt_bot_iff {c : Cut α} : cutLt .bot c ↔ c ≠ .bot := by
  cases c <;> simp [cutLt]

theorem cutLt_top_iff {c : Cut α} : cutLt c .top ↔ c ≠ .top := by
  cases c <;> simp [cutLt]

theorem kappa_start_eq_bot_iff {b : Bound α} :
    kappa (.Start b) = .bot ↔ b = .Unbounded := by
  cases b <;> simp [kappa]

theorem kappa_end_eq_top_iff {b : Bound α} :
    kappa (.End b) = .top ↔ b = .Unbounded := by
  cases b <;> simp [kappa]

theorem lastUnb_some {v : Range α} :
    lastUnb (some v) = decide (v.endB = .Unbounded) :=
  rfl

/-- `add` to a state whose pending range already has an unbounded end is a
no-op returning `true`. -/
theorem add_stuck {a : LinearRangeAdder α} {v : Range α}
    (hv : a.last = some v) (h : v.endB = .Unbounded) (r : Range α) :
    a.add r = (a, true) := by
  unfold LinearRangeAdder.add
  rw [hv, lastUnb_some, if_pos (by simp [h])]

/-- `add` to a state with no pending range installs the range as pending. -/
theorem add_none {a : LinearRangeAdder α} (h : a.last = none) (r : Range α) :
    a.add r = ({ items := a.items, last := some r }, lastUnb (some r)) := by
  unfold LinearRangeAdder.add
  rw [h]
  rfl

/-- `add` when a gap separates the pending range from the incoming one:
flush pending, the incoming range becomes pending. -/
theorem add_gap {a : LinearRangeAdder α} {v : Range α}
    (hv : a.last = some v) (hunb : v.endB ≠ .Unbounded) {r : Range α}
    (hgap : cutLt (endCut v) (startCut r)) :
    a.add r = ({ items := a.items ++ [v], last := some r },
      lastUnb (some r)) := by
  unfold LinearRangeAdder.add
  rw [hv, lastUnb_some, if_neg (by simp [hunb])]
  have hc : v.end_pos.cmp r.start_pos = .lt := cmp_lt_iff.mpr hgap
  simp only [hc, if_pos rfl, if_true]

/-- `add` in the coalescing case where the incoming end is farther: the
pending range's end is widened. -/
theorem add_merge_grow {a : LinearRangeAdder α} {v : Range α}
    (hv : a.last = some v) (hunb : v.endB ≠ .Unbounded) {r : Range α}
    (hng : ¬ cutLt (endCut v) (startCut r))
    (hgrow : cutLt (endCut v) (endCut r)) :
    a.add r = ({ items := a.items, last := some { v with endB := r.endB } },
      lastUnb (some { v with endB := r.endB })) := by
  unfold LinearRangeAdder.add
  rw [hv, lastUnb_some, if_neg (by simp [hunb])]
  have hc : ¬ v.end_pos.cmp r.start_pos = .lt := fun h => hng (cmp_lt_iff.mp h)
  have hg : r.end_pos.cmp v.end_pos = .gt := cmp_gt_iff.mpr hgrow
  simp only [hc, if_neg, hg, if_pos rfl, ite_false, ite_true]

/-- `add` in the coalescing case where the incoming end is not farther: the
pending range is kept unchanged. -/
theorem add_merge_keep {a : LinearRangeAdder α} {v : Range α}
    (hv : a.last = some v) (hunb : v.endB ≠ .Unbounded) {r : Range α}
    (hng : ¬ cutLt (endCut v) (startCut r))
    (hkeep : ¬ cutLt (endCut v) (endCut r)) :
    a.add r = ({ items := a.items, last := some v }, lastUnb (some v)) := by
  unfold LinearRangeAdder.add
  rw [hv, lastUnb_some, if_neg (by simp [hunb])]
  have hc : ¬ v.end_pos.cmp r.start_pos = .lt := fun h => hng (cmp_lt_iff.mp h)
  have hg : ¬ r.end_pos.cmp v.end_pos = .gt := fun h => hkeep (cmp_gt_iff.mp h)
  simp only [hc, hg, ite_false, ite_true, if_neg, if_pos]
  rfl

/-- The flag returned by `add` is exactly "the new pending range has an
unbounded end". -/
theorem add_flag (a : LinearRangeAdder α) (r : Range α) :
    (a.add r).2 = lastUnb (a.add r).1.last := by
  unfold LinearRangeAdder.add
  split_ifs with h
  · exact h.symm
  · rfl

theorem addA_stuck {a : LinearRangeAdder α} (h : lastUnb a.last = true)
    (r : Range α) : addA a r = a := by
  rcases hv : a.last with _ | v
  · rw [hv] at h
    cases h
  · rw [hv, lastUnb_some, decide_eq_true_iff] at h
    rw [addA, add_stuck hv h]

theorem foldAdd_stuck {a : LinearRangeAdder α} (h : lastUnb a.last = true) :
    ∀ L : List (Range α), foldAdd a L = a := by
  intro L
  induction L with
  | nil => rfl
  | cons r rest ih =>
    show foldAdd (addA a r) rest = a
    rw [addA_stuck h r]
    exact ih

/-!
Claim theorems start here.  Concrete counterexamples and evaluations use
`ℤ` as the scalar type.
-/

/-- C1: the spec claims `is_disjoint(A, B)` is true iff `A` and `B` share no
point.  The code violates this: for `A = {[5,20)}` and `B = {[0,10)}`,
`is_disjoint` returns `true`, although the point `5` is contained in both
sets (and `is_overlapping` agrees that they overlap).  When `B`'s head range
starts below `A`'s and ends below `A`'s end, the scan advances past it
without comparing `B`'s end to `A`'s start, losing the overlap. -/
theorem C1_is_disjoint_misses_overlap :
    (RangeSet.is_disjoint (⟨[⟨.Included 5, .Excluded 20⟩]⟩ : RangeSet ℤ)
        ⟨[⟨.Included 0, .Excluded 10⟩]⟩ = true)
    ∧ (RangeSet.contains ⟨[⟨.Included 5, .Excluded 20⟩]⟩ (5 : ℤ) = true)
    ∧ (RangeSet.contains ⟨[⟨.Included 0, .Excluded 10⟩]⟩ (5 : ℤ) = true)
    ∧ (RangeSet.is_overlapping (⟨[⟨.Included 5, .Excluded 20⟩]⟩ : RangeSet ℤ)
        ⟨[⟨.Included 0, .Excluded 10⟩]⟩ = true) := by
  refine ⟨?_, by decide, by decide, ?_⟩ <;>
    simp [RangeSet.is_disjoint, RangeSet.is_overlapping, RangeSet.is_empty,
      RangeSet.is_unbound, Range.is_unbound, disjointLoop, overlapLoop,
      Range.start_pos, Range.end_pos, PositionalBound.cmp,
      compare_lt_iff_lt, compare_eq_iff_eq, compare_gt_iff_gt]

/-- C2: the spec claims `is_disjoint(A,B) == !is_overlapping(A,B)` for
nonempty, non-full-domain `A`, `B`.  The `is_disjoint` bug of C1 breaks the
duality: for `A = {[5,20)}` and `B = {[0,10)}` (both nonempty and not
full-domain) both predicates return `true`. -/
theorem C2_duality_fails :
    ((⟨[⟨.Included 5, .Excluded 20⟩]⟩ : RangeSet ℤ).is_empty = false)
    ∧ ((⟨[⟨.Included 0, .Excluded 10⟩]⟩ : RangeSet ℤ).is_empty = false)
    ∧ ((⟨[⟨.Included 5, .Excluded 20⟩]⟩ : RangeSet ℤ).is_unbound = false)
    ∧ ((⟨[⟨.Included 0, .Excluded 10⟩]⟩ : RangeSet ℤ).is_unbound = false)
    ∧ RangeSet.is_disjoint (⟨[⟨.Included 5, .Excluded 20⟩]⟩ : RangeSet ℤ)
        ⟨[⟨.Included 0, .Excluded 10⟩]⟩
      ≠ !(RangeSet.is_overlapping (⟨[⟨.Included 5, .Excluded 20⟩]⟩ : RangeSet ℤ)
        ⟨[⟨.Included 0, .Excluded 10⟩]⟩) := by
  refine ⟨by decide, by decide, by decide, by decide, ?_⟩
  have h1 : RangeSet.is_disjoint (⟨[⟨.Included 5, .Excluded 20⟩]⟩ : RangeSet ℤ)
      ⟨[⟨.Included 0, .Excluded 10⟩]⟩ = true := by
    simp [RangeSet.is_disjoint, RangeSet.is_empty, RangeSet.is_unbound,
      Range.is_unbound, disjointLoop, Range.start_pos, Range.end_pos,
      PositionalBound.cmp, compare_lt_iff_lt, compare_eq_iff_eq,
      compare_gt_iff_gt]
  have h2 : RangeSet.is_overlapping (⟨[⟨.Included 5, .Excluded 20⟩]⟩ : RangeSet ℤ)
      ⟨[⟨.Included 0, .Excluded 10⟩]⟩ = true := by
    simp [RangeSet.is_overlapping, RangeSet.is_empty, RangeSet.is_unbound,
      Range.is_unbound, overlapLoop, Range.start_pos, Range.end_pos,
      PositionalBound.cmp, compare_lt_iff_lt, compare_eq_iff_eq,
      compare_gt_iff_gt]
  rw [h1, h2]
  decide

/-- C8: containment respects the endpoint semantics: `[4,8)` contains `4`
but not `8`; `(4, ∞)` does not contain `4` but contains `5`. -/
theorem C8_endpoint_semantics :
    (Range.contains ⟨.Included 4, .Excluded 8⟩ (4 : ℤ) = true)
    ∧ (Range.contains ⟨.Included 4, .Excluded 8⟩ (8 : ℤ) = false)
    ∧ (Range.contains ⟨.Excluded 4, .Unbounded⟩ (4 : ℤ) = false)
    ∧ (Range.contains ⟨.Excluded 4, .Unbounded⟩ (5 : ℤ) = true) := by
  decide

/-- C10: a role-tagged boundary never compares equal to a scalar: the
equality test is constantly `false`, and `partial_cmp` always returns a
defined result that is strictly `lt` or strictly `gt`, never `eq`. -/
theorem C10_bound_never_equals_scalar (p : PositionalBound α) (x : α) :
    p.eqVal x = false
    ∧ p.partialCmpVal x = some (p.cmpVal x)
    ∧ (p.cmpVal x = .lt ∨ p.cmpVal x = .gt) := by
  exact ⟨rfl, rfl, cmpVal_lt_or_gt p x⟩

theorem endCut_eq_top_iff {r : Range α} :
    endCut r = .top ↔ r.endB = .Unbounded := by
  rw [endCut, Range.end_pos]
  exact kappa_end_eq_top_iff

theorem startCut_eq_bot_iff {r : Range α} :
    startCut r = .bot ↔ r.start = .Unbounded := by
  rw [startCut, Range.start_pos]
  exact kappa_start_eq_bot_iff

/-- Absorbing the full-domain range into a pending range that starts at
`Unbounded` (with empty output so far) finalizes to the full-domain set and
raises the stop flag. -/
theorem add_unbound_finalize {a : LinearRangeAdder α} {v : Range α}
    (hi : a.items = []) (hl : a.last = some v) (hs : v.start = .Unbounded) :
    (a.add Range.unbound).1.finalize = RangeSet.unbound
    ∧ (a.add Range.unbound).2 = true := by
  obtain ⟨vs, ve⟩ := v
  cases hs
  by_cases hvu : ve = .Unbounded
  · cases hvu
    rw [add_stuck hl rfl]
    refine ⟨?_, rfl⟩
    simp [LinearRangeAdder.finalize, hl, hi, RangeSet.unbound, Range.unbound]
  · have hvu2 : Range.endB ⟨Bound.Unbounded, ve⟩ ≠ .Unbounded := hvu
    have hng : ¬ cutLt (endCut (⟨.Unbounded, ve⟩ : Range α))
        (startCut (Range.unbound (α := α))) := not_cutLt_bot _
    have hgrow : cutLt (endCut (⟨.Unbounded, ve⟩ : Range α))
        (endCut (Range.unbound (α := α))) := by
      show cutLt (endCut (⟨.Unbounded, ve⟩ : Range α)) Cut.top
      exact cutLt_top_iff.mpr (fun h => hvu (endCut_eq_top_iff.mp h))
    rw [add_merge_grow hl hvu2 hng hgrow]
    constructor
    · simp [LinearRangeAdder.finalize, hi, RangeSet.unbound, Range.unbound]
    · simp [lastUnb, Range.unbound]

/-- Helper for C6: once the pending range starts at `Unbounded` and the
output is still empty, merging any remaining left items with the full-domain
range on the right always finalizes to the full-domain set. -/
theorem unionLoop_unbound_right :
    ∀ (ls : List (Range α)) (a : LinearRangeAdder α) (v : Range α),
      a.items = [] → a.last = some v → v.start = .Unbounded →
      (unionLoop a ls [Range.unbound]).finalize = RangeSet.unbound := by
  intro ls
  induction ls with
  | nil =>
    intro a v hi hl hs
    simp only [unionLoop]
    obtain ⟨hfin, hflag⟩ := add_unbound_finalize hi hl hs
    rw [if_pos hflag]
    exact hfin
  | cons l ls ih =>
    intro a v hi hl hs
    simp only [unionLoop]
    by_cases hcond :
        (Range.unbound (α := α)).start_pos.cmp l.start_pos = .lt
    · rw [if_pos hcond]
      obtain ⟨hfin, hflag⟩ := add_unbound_finalize hi hl hs
      rw [if_pos hflag]
      exact hfin
    · rw [if_neg hcond]
      have hls : l.start = .Unbounded := by
        rw [cmp_lt_iff] at hcond
        refine startCut_eq_bot_iff.mp (by_contra fun h2 => ?_)
        exact hcond (cutLt_bot_iff.mpr h2)
      obtain ⟨vs, ve⟩ := v
      cases hs
      by_cases hvu : ve = .Unbounded
      · cases hvu
        rw [add_stuck hl rfl]
        have hflag : ((a, true) : LinearRangeAdder α × Bool).2 = true := rfl
        rw [if_pos hflag]
        simp [LinearRangeAdder.finalize, hl, hi, RangeSet.unbound, Range.unbound]
      · have hvu2 : Range.endB ⟨Bound.Unbounded, ve⟩ ≠ .Unbounded := hvu
        have hng : ¬ cutLt (endCut (⟨.Unbounded, ve⟩ : Range α))
            (startCut l) := by
          rw [startCut_eq_bot_iff.mpr hls]
          exact not_cutLt_bot _
        by_cases hgrow : cutLt (endCut (⟨.Unbounded, ve⟩ : Range α)) (endCut l)
        · rw [add_merge_grow hl hvu2 hng hgrow]
          by_cases hlu : l.endB = .Unbounded
          · have hflag :
                lastUnb (some ({ start := Bound.Unbounded, endB := l.endB } :
                  Range α)) = true := by
              simp [lastUnb, hlu]
            rw [if_pos hflag]
            simp [LinearRangeAdder.finalize, hi, hlu, RangeSet.unbound,
              Range.unbound]
          · have hflag :
                ¬ lastUnb (some ({ start := Bound.Unbounded, endB := l.endB } :
                  Range α)) = true := by
              simp [lastUnb, hlu]
            rw [if_neg hflag]
            exact ih _ _ hi rfl rfl
        · rw [add_merge_keep hl hvu2 hng hgrow]
          have hflag :
              ¬ lastUnb (some (⟨Bound.Unbounded, ve⟩ : Range α)) = true := by
            simp [lastUnb, hvu]
          rw [if_neg hflag]
          exact ih _ _ hi rfl rfl

/-- C6: `union(A, empty)` returns `A` itself (the empty-operand fast path
returns a clone), and `union(A, unbound)` returns the full-domain set — for
every range set `A`, normalized or not. -/
theorem C6_union_identity_absorption (s : RangeSet α) :
    s.union RangeSet.empty = s ∧ s.union RangeSet.unbound = RangeSet.unbound := by
  constructor
  · simp [RangeSet.union, RangeSet.empty, RangeSet.is_empty]
  · rw [RangeSet.union,
      if_neg (by simp [RangeSet.unbound, RangeSet.is_empty])]
    by_cases hse : s.is_empty
    · rw [if_pos hse]
    · rw [if_neg hse]
      rcases hsi : s.items with _ | ⟨l, ls⟩
      · rw [RangeSet.is_empty, hsi] at hse
        exact absurd rfl hse
      · show (unionLoop adderInit (l :: ls) [Range.unbound]).finalize = _
        simp only [unionLoop]
        by_cases hcond :
            (Range.unbound (α := α)).start_pos.cmp l.start_pos = .lt
        · rw [if_pos hcond, add_none rfl]
          have hflag : lastUnb (some (Range.unbound (α := α))) = true := by
            simp [lastUnb, Range.unbound]
          rw [if_pos hflag]
          simp [LinearRangeAdder.finalize, RangeSet.unbound, Range.unbound,
            adderInit]
        · rw [if_neg hcond]
          have hls : l.start = .Unbounded := by
            rw [cmp_lt_iff] at hcond
            refine startCut_eq_bot_iff.mp (by_contra fun h2 => ?_)
            exact hcond (cutLt_bot_iff.mpr h2)
          rw [add_none rfl]
          by_cases hlu : l.endB = .Unbounded
          · have hflag : lastUnb (some l) = true := by
              simp [lastUnb, hlu]
            rw [if_pos hflag]
            obtain ⟨lsb, leb⟩ := l
            cases hls
            cases hlu
            simp [LinearRangeAdder.finalize, RangeSet.unbound, Range.unbound,
              adderInit]
          · have hflag : ¬ lastUnb (some l) = true := by
              simp [lastUnb, hlu]
            rw [if_neg hflag]
            exact unionLoop_unbound_right ls _ l rfl rfl hls

/-- C9: the Normalizing Merger's `add` returns `true` exactly when the
pending range's upper boundary is `Unbounded` after the call; and the flag is
a pure optimization: once it is `true`, feeding any further input does not
change the finalized set. -/
theorem C9_adder_flag (a : LinearRangeAdder α) (r : Range α) :
    ((a.add r).2 = true ↔
      ∃ p, (a.add r).1.last = some p ∧ p.endB = .Unbounded)
    ∧ ((a.add r).2 = true → ∀ L : List (Range α),
        (foldAdd (a.add r).1 L).finalize = (a.add r).1.finalize) := by
  constructor
  · rw [add_flag]
    rcases h : (a.add r).1.last with _ | p
    · simp [lastUnb]
    · simp [lastUnb_some, decide_eq_true_iff]
  · intro hflag L
    have h : lastUnb (a.add r).1.last = true := by
      rw [← add_flag]
      exact hflag
    rw [foldAdd_stuck h L]

/-- Witness for C9 at a concrete input: adding `[0, ∞)` to a fresh adder
returns `true` with pending `[0, ∞)`, and further sorted input (`[3, ∞)`)
does not change the finalized set. -/
theorem C9_adder_flag_witness :
    (((adderInit : LinearRangeAdder ℤ).add ⟨.Included 0, .Unbounded⟩).2 = true
      ↔ ∃ p, ((adderInit : LinearRangeAdder ℤ).add
          ⟨.Included 0, .Unbounded⟩).1.last = some p ∧ p.endB = .Unbounded)
    ∧ ((foldAdd ((adderInit : LinearRangeAdder ℤ).add
          ⟨.Included 0, .Unbounded⟩).1 [⟨.Included 3, .Unbounded⟩]).finalize =
        ((adderInit : LinearRangeAdder ℤ).add
          ⟨.Included 0, .Unbounded⟩).1.finalize) :=
  ⟨(C9_adder_flag adderInit ⟨.Included 0, .Unbounded⟩).1,
    (C9_adder_flag adderInit ⟨.Included 0, .Unbounded⟩).2 (by decide) _⟩

/-!
Coverage semantics of the adder: each range covers the closed interval of
cut points between its start cut and end cut, and on sorted well-formed
input the adder computes exactly the maximal separated decomposition of the
union of these closed cut intervals.
-/

theorem cutLe_top (c : Cut α) : cutLe c .top := by
  cases c with
  | bot => exact Or.inl trivial
  | mid a t => exact Or.inl trivial
  | top => exact Or.inr rfl

theorem cutLe_bot_left (c : Cut α) : cutLe .bot c := by
  cases c with
  | bot => exact Or.inr rfl
  | mid a t => exact Or.inl trivial
  | top => exact Or.inl trivial

/-- The closed cut interval covered by one range. -/
def covR (r : Range α) (c : Cut α) : Prop :=
  cutLe (startCut r) c ∧ cutLe c (endCut r)

/-- The cut points covered by a list of ranges. -/
def covL (L : List (Range α)) (c : Cut α) : Prop :=
  ∃ r ∈ L, covR r c

theorem covL_nil {c : Cut α} : covL ([] : List (Range α)) c ↔ False := by
  simp [covL]

theorem covL_cons {r : Range α} {L : List (Range α)} {c : Cut α} :
    covL (r :: L) c ↔ covR r c ∨ covL L c := by
  simp [covL]

theorem covL_append {L1 L2 : List (Range α)} {c : Cut α} :
    covL (L1 ++ L2) c ↔ covL L1 c ∨ covL L2 c := by
  simp [covL, List.mem_append]
  constructor
  · rintro ⟨r, hr | hr, hc⟩
    · exact Or.inl ⟨r, hr, hc⟩
    · exact Or.inr ⟨r, hr, hc⟩
  · rintro (⟨r, hr, hc⟩ | ⟨r, hr, hc⟩)
    · exact ⟨r, Or.inl hr, hc⟩
    · exact ⟨r, Or.inr hr, hc⟩

/-- Mid-run invariant of the adder: the output so far, together with the
pending range, is separated and well-formed; with no pending range the
output is empty. -/
def AdderInv (s : LinearRangeAdder α) : Prop :=
  match s.last with
  | none => s.items = []
  | some p => SepChain (s.items ++ [p]) ∧ WFall (s.items ++ [p])

/-- The incoming range starts no earlier than the pending one (the sorted
input precondition, relative to the current state). -/
def canAdd (s : LinearRangeAdder α) (r : Range α) : Prop :=
  match s.last with
  | none => True
  | some p => cutLe (startCut p) (startCut r)

theorem sepChain_snoc :
    ∀ {L : List (Range α)} {p r : Range α},
      SepChain (L ++ [p]) → cutLt (endCut p) (startCut r) →
      SepChain (L ++ [p] ++ [r])
  | [], p, r, _, hpr => ⟨hpr, trivial⟩
  | [l], p, r, h, hpr => ⟨h.1, hpr, trivial⟩
  | l :: l2 :: L, p, r, h, hpr =>
    ⟨h.1, sepChain_snoc (L := l2 :: L) h.2 hpr⟩

theorem sepChain_snoc_congr :
    ∀ {L : List (Range α)} {p q : Range α}, startCut p = startCut q →
      SepChain (L ++ [p]) → SepChain (L ++ [q])
  | [], _, _, _, _ => trivial
  | [l], p, q, hs, h => ⟨hs ▸ h.1, trivial⟩
  | l :: l2 :: L, p, q, hs, h =>
    ⟨h.1, sepChain_snoc_congr (L := l2 :: L) hs h.2⟩

theorem wfall_append {M N : List (Range α)} :
    WFall (M ++ N) ↔ WFall M ∧ WFall N := by
  induction M with
  | nil => simp [WFall]
  | cons r L ih =>
    show WFr r ∧ WFall (L ++ N) ↔ (WFr r ∧ WFall L) ∧ WFall N
    rw [ih, and_assoc]

theorem wfall_mem {L : List (Range α)} (h : WFall L) {r : Range α}
    (hr : r ∈ L) : WFr r := by
  induction L with
  | nil => cases hr
  | cons x L ih =>
    rcases List.mem_cons.mp hr with rfl | hr2
    · exact h.1
    · exact ih h.2 hr2

theorem wfall_of_mem {L : List (Range α)} (h : ∀ r ∈ L, WFr r) : WFall L := by
  induction L with
  | nil => trivial
  | cons x L ih =>
    exact ⟨h x (List.mem_cons_self x L), ih fun r hr => h r (List.mem_cons_of_mem x hr)⟩

/-- One `add` step preserves the invariant, grows the coverage of the
finalized state by the incoming range's interval, and keeps the sortedness
precondition for later input. -/
theorem addA_step {s : LinearRangeAdder α} {r : Range α}
    (hinv : AdderInv s) (hwf : WFr r) (hcan : canAdd s r) :
    AdderInv (addA s r)
    ∧ (∀ c, covL (addA s r).finalize.items c ↔
        covL s.finalize.items c ∨ covR r c)
    ∧ (∀ r2 : Range α, cutLe (startCut r) (startCut r2) →
        canAdd (addA s r) r2) := by
  rcases hl : s.last with _ | v
  · have hi : s.items = [] := by
      simp only [AdderInv, hl] at hinv
      exact hinv
    have ha : addA s r = ⟨s.items, some r⟩ := by
      rw [addA, add_none hl]
    refine ⟨?_, ?_, ?_⟩
    · simp only [AdderInv, ha, hi]
      exact ⟨trivial, hwf, trivial⟩
    · intro c
      simp [ha, hi, LinearRangeAdder.finalize, hl, covL_cons, covL_nil]
    · intro r2 h2
      simp only [canAdd, ha]
      exact h2
  · simp only [AdderInv, hl] at hinv
    obtain ⟨hsep, hwfa⟩ := hinv
    have hcanv : cutLe (startCut v) (startCut r) := by
      simp only [canAdd, hl] at hcan
      exact hcan
    have hwfv : WFr v := wfall_mem hwfa (by simp)
    by_cases hvu : v.endB = .Unbounded
    · rw [addA, add_stuck hl hvu]
      refine ⟨?_, ?_, ?_⟩
      · simp only [AdderInv, hl]
        exact ⟨hsep, hwfa⟩
      · intro c
        have habs : covR r c → covL s.finalize.items c := by
          rintro ⟨h1, h2⟩
          refine ⟨v, ?_, cutLe_trans hcanv h1, ?_⟩
          · simp [LinearRangeAdder.finalize, hl]
          · have : endCut v = Cut.top := endCut_eq_top_iff.mpr hvu
            rw [this]
            exact cutLe_top c
        constructor
        · intro h
          exact Or.inl h
        · rintro (h | h)
          · exact h
          · exact habs h
      · intro r2 h2
        simp only [canAdd, hl]
        exact cutLe_trans hcanv h2
    · by_cases hgap : cutLt (endCut v) (startCut r)
      · have ha : addA s r = ⟨s.items ++ [v], some r⟩ := by
          rw [addA, add_gap hl hvu hgap]
        refine ⟨?_, ?_, ?_⟩
        · simp only [AdderInv, ha]
          exact ⟨sepChain_snoc hsep hgap,
            (wfall_append).mpr ⟨hwfa, hwf, trivial⟩⟩
        · intro c
          simp only [ha, LinearRangeAdder.finalize, hl]
          simp only [covL_append, covL_cons, covL_nil, or_false]
        · intro r2 h2
          simp only [canAdd, ha]
          exact h2
      · have hrle : cutLe (startCut r) (endCut v) := not_cutLt_iff.mp hgap
        by_cases hgrow : cutLt (endCut v) (endCut r)
        · have ha : addA s r = ⟨s.items, some ⟨v.start, r.endB⟩⟩ := by
            rw [addA, add_merge_grow hl hvu hgap hgrow]
          have hsc : startCut (⟨v.start, r.endB⟩ : Range α) = startCut v := rfl
          have hec : endCut (⟨v.start, r.endB⟩ : Range α) = endCut r := rfl
          refine ⟨?_, ?_, ?_⟩
          · simp only [AdderInv, ha]
            refine ⟨sepChain_snoc_congr hsc.symm hsep, ?_⟩
            rw [wfall_append] at hwfa ⊢
            refine ⟨hwfa.1, ?_, trivial⟩
            show cutLt (startCut (⟨v.start, r.endB⟩ : Range α)) (endCut _)
            rw [hsc, hec]
            exact cutLt_trans hwfv hgrow
          · intro c
            simp only [ha, LinearRangeAdder.finalize, hl]
            simp only [covL_append, covL_cons, covL_nil, or_false]
            constructor
            · rintro (h | ⟨h1, h2⟩)
              · exact Or.inl (Or.inl h)
              · rw [hsc] at h1
                rw [hec] at h2
                rcases cutLe_total c (endCut v) with h3 | h3
                · exact Or.inl (Or.inr ⟨h1, h3⟩)
                · refine Or.inr ⟨?_, h2⟩
                  rcases h3 with h3 | h3
                  · exact cutLe_of_lt (cutLt_of_le_of_lt hrle h3)
                  · rw [← h3]
                    exact hrle
            · rintro ((h | ⟨h1, h2⟩) | ⟨h1, h2⟩)
              · exact Or.inl h
              · refine Or.inr ⟨hsc.symm ▸ h1, ?_⟩
                rw [hec]
                exact cutLe_trans h2 (cutLe_of_lt hgrow)
              · refine Or.inr ⟨?_, hec.symm ▸ h2⟩
                rw [hsc]
                exact cutLe_trans hcanv h1
          · intro r2 h2
            simp only [canAdd, ha]
            rw [hsc]
            exact cutLe_trans hcanv h2
        · have hrend : cutLe (endCut r) (endCut v) := not_cutLt_iff.mp hgrow
          have ha : addA s r = ⟨s.items, some v⟩ := by
            rw [addA, add_merge_keep hl hvu hgap hgrow]
          refine ⟨?_, ?_, ?_⟩
          · simp only [AdderInv, ha]
            exact ⟨hsep, hwfa⟩
          · intro c
            simp only [ha, LinearRangeAdder.finalize, hl]
            constructor
            · intro h
              exact Or.inl h
            · rintro (h | ⟨h1, h2⟩)
              · exact h
              · rw [covL_append, covL_cons]
                refine Or.inr (Or.inl ⟨cutLe_trans hcanv h1,
                  cutLe_trans h2 hrend⟩)
          · intro r2 h2
            simp only [canAdd, ha]
            exact cutLe_trans hcanv h2

theorem adderInv_finalize {s : LinearRangeAdder α} (h : AdderInv s) :
    SepChain s.finalize.items ∧ WFall s.finalize.items := by
  rcases hl : s.last with _ | p
  · simp only [AdderInv, hl] at h
    simp [LinearRangeAdder.finalize, hl, h, SepChain, WFall]
  · simp only [AdderInv, hl] at h
    simpa [LinearRangeAdder.finalize, hl] using h

/-- Folding a sorted well-formed input list through the adder preserves the
invariant and adds exactly the list's coverage. -/
theorem foldAdd_inv :
    ∀ {L : List (Range α)} {s : LinearRangeAdder α},
      AdderInv s → WFall L → SortedND L →
      (∀ r, L.head? = some r → canAdd s r) →
      AdderInv (foldAdd s L)
      ∧ (∀ c, covL (foldAdd s L).finalize.items c ↔
          covL s.finalize.items c ∨ covL L c) := by
  intro L
  induction L with
  | nil =>
    intro s hinv _ _ _
    exact ⟨hinv, fun c => by simp [foldAdd, covL_nil]⟩
  | cons r rest ih =>
    intro s hinv hwf hsort hcan
    obtain ⟨inv2, cov2, can2⟩ := addA_step hinv hwf.1 (hcan r rfl)
    have hsort2 : SortedND rest := by
      cases rest with
      | nil => trivial
      | cons r2 rest2 => exact hsort.2
    have hcan2 : ∀ r2, rest.head? = some r2 → canAdd (addA s r) r2 := by
      intro r2 h2
      cases rest with
      | nil => cases h2
      | cons r3 rest3 =>
        cases h2
        exact can2 r2 hsort.1
    obtain ⟨finv, fcov⟩ := ih inv2 hwf.2 hsort2 hcan2
    have hfold : foldAdd s (r :: rest) = foldAdd (addA s r) rest := rfl
    refine ⟨hfold ▸ finv, fun c => ?_⟩
    rw [hfold, fcov c, cov2 c, covL_cons]
    tauto

/-- Building from a sorted, well-formed stream: the result is separated and
well-formed and covers exactly the input. -/
theorem buildSorted_spec {L : List (Range α)} (hwf : WFall L)
    (hsort : SortedND L) :
    SepChain (foldAdd adderInit L).finalize.items
    ∧ WFall (foldAdd adderInit L).finalize.items
    ∧ (∀ c, covL (foldAdd adderInit L).finalize.items c ↔ covL L c) := by
  have hinv : AdderInv (adderInit : LinearRangeAdder α) := rfl
  obtain ⟨finv, fcov⟩ := foldAdd_inv hinv hwf hsort (fun r _ => trivial)
  obtain ⟨hsep, hwfa⟩ := adderInv_finalize finv
  refine ⟨hsep, hwfa, fun c => ?_⟩
  rw [fcov c]
  simp [LinearRangeAdder.finalize, adderInit, covL_nil]

/-!
Uniqueness: a separated, well-formed list is determined by its coverage.
-/

theorem covL_self_start {r : Range α} {L : List (Range α)} (h : WFr r)
    (hr : r ∈ L) : covL L (startCut r) :=
  ⟨r, hr, cutLe_refl _, cutLe_of_lt h⟩

theorem covL_self_end {r : Range α} {L : List (Range α)} (h : WFr r)
    (hr : r ∈ L) : covL L (endCut r) :=
  ⟨r, hr, cutLe_of_lt h, cutLe_refl _⟩

theorem sortedStrict_head_le :
    ∀ {L : List (Range α)} (r : Range α), SortedStrict (r :: L) →
      ∀ x ∈ L, cutLe (startCut r) (startCut x)
  | [], _, _, x, hx => absurd hx (List.not_mem_nil x)
  | q :: L, r, h, x, hx => by
    rcases List.mem_cons.mp hx with rfl | hx2
    · exact cutLe_of_lt h.1
    · exact cutLe_trans (cutLe_of_lt h.1) (sortedStrict_head_le q h.2 x hx2)

theorem sep_head_le {r : Range α} {L : List (Range α)}
    (hsep : SepChain (r :: L)) (hwf : WFall (r :: L)) :
    ∀ x ∈ r :: L, cutLe (startCut r) (startCut x) := by
  intro x hx
  rcases List.mem_cons.mp hx with rfl | hx2
  · exact cutLe_refl _
  · exact sortedStrict_head_le r (sortedStrict_of_sep_wf hsep hwf) x hx2

theorem covL_tail_above {r : Range α} {L : List (Range α)}
    (hsep : SepChain (r :: L)) (hwf : WFall (r :: L)) {c : Cut α}
    (hc : covL L c) : cutLt (endCut r) c := by
  obtain ⟨x, hx, hx1, hx2⟩ := hc
  cases L with
  | nil => cases hx
  | cons q L2 =>
    have h1 : cutLe (startCut q) (startCut x) :=
      sep_head_le (sepChain_tail hsep) hwf.2 x hx
    exact cutLt_of_lt_of_le hsep.1 (cutLe_trans h1 hx1)

theorem cov_start_le {r1 r2 : Range α} {T1 T2 : List (Range α)}
    (hsep1 : SepChain (r1 :: T1)) (hwf1 : WFall (r1 :: T1))
    (hwf2 : WFall (r2 :: T2))
    (hcov : ∀ c, covL (r2 :: T2) c → covL (r1 :: T1) c) :
    cutLe (startCut r1) (startCut r2) := by
  obtain ⟨x, hx, hx1, hx2⟩ :=
    hcov _ (covL_self_start hwf2.1 (List.mem_cons_self r2 T2))
  exact cutLe_trans (sep_head_le hsep1 hwf1 x hx) hx1

theorem cov_end_le {r1 r2 : Range α} {T1 T2 : List (Range α)}
    (hsep1 : SepChain (r1 :: T1)) (hwf1 : WFall (r1 :: T1))
    (hwf2 : WFall (r2 :: T2))
    (hstart : startCut r1 = startCut r2)
    (hcov : ∀ c, covL (r2 :: T2) c → covL (r1 :: T1) c) :
    cutLe (endCut r2) (endCut r1) := by
  obtain ⟨x, hx, hx1, hx2⟩ :=
    hcov _ (covL_self_end hwf2.1 (List.mem_cons_self r2 T2))
  rcases List.mem_cons.mp hx with rfl | hx3
  · exact hx2
  · exfalso
    cases T1 with
    | nil => cases hx3
    | cons q T1b =>
      have hq_le_x : cutLe (startCut q) (startCut x) :=
        sep_head_le (sepChain_tail hsep1) hwf1.2 x hx3
      obtain ⟨m, hm1, hm2⟩ := gap_cut_exists hsep1.1
      have hm_le_e2 : cutLe m (endCut r2) :=
        cutLe_trans (cutLe_of_lt (cutLt_of_lt_of_le hm2 hq_le_x)) hx1
      have hm_cov2 : covL (r2 :: T2) m := by
        refine ⟨r2, List.mem_cons_self r2 T2, ?_, hm_le_e2⟩
        rw [← hstart]
        exact cutLe_of_lt (cutLt_trans hwf1.1 hm1)
      obtain ⟨y, hy, hy1, hy2⟩ := hcov m hm_cov2
      rcases List.mem_cons.mp hy with rfl | hy3
      · exact cutLt_irrefl _ (cutLt_of_lt_of_le hm1 hy2)
      · have hq_le_y : cutLe (startCut q) (startCut y) :=
          sep_head_le (sepChain_tail hsep1) hwf1.2 y hy3
        exact cutLt_irrefl _
          (cutLt_of_lt_of_le hm2 (cutLe_trans hq_le_y hy1))

theorem cov_tail_imp {r1 r2 : Range α} {T1 T2 : List (Range α)}
    (hsep2 : SepChain (r2 :: T2)) (hwf2 : WFall (r2 :: T2))
    (hend : endCut r1 = endCut r2)
    (hcov : ∀ c, covL (r2 :: T2) c → covL (r1 :: T1) c) :
    ∀ c, covL T2 c → covL T1 c := by
  intro c hc
  have habove : cutLt (endCut r2) c := covL_tail_above hsep2 hwf2 hc
  rcases covL_cons.mp (hcov c (covL_cons.mpr (Or.inr hc))) with h2 | h2
  · exfalso
    have h3 : cutLt (endCut r2) (endCut r1) := cutLt_of_lt_of_le habove h2.2
    rw [hend] at h3
    exact cutLt_irrefl _ h3
  · exact h2

theorem range_eq_of_cuts {r1 r2 : Range α} (hs : startCut r1 = startCut r2)
    (he : endCut r1 = endCut r2) : r1 = r2 := by
  obtain ⟨s1, e1⟩ := r1
  obtain ⟨s2, e2⟩ := r2
  have h1 := kappa_start_inj hs
  have h2 := kappa_end_inj he
  cases h1
  cases h2
  rfl

/-- Two separated, well-formed lists with the same coverage are equal: the
separated decomposition of a cut set is unique. -/
theorem cov_unique :
    ∀ {M N : List (Range α)},
      SepChain M → WFall M → SepChain N → WFall N →
      (∀ c, covL M c ↔ covL N c) → M = N
  | [], [], _, _, _, _, _ => rfl
  | [], r :: N, _, _, _, hwf2, hcov => by
    exact absurd
      ((hcov _).mpr (covL_self_start hwf2.1 (List.mem_cons_self r N)))
      (by simp [covL_nil])
  | r :: M, [], _, hwf1, _, _, hcov => by
    exact absurd
      ((hcov _).mp (covL_self_start hwf1.1 (List.mem_cons_self r M)))
      (by simp [covL_nil])
  | r1 :: T1, r2 :: T2, hsep1, hwf1, hsep2, hwf2, hcov => by
    have hcov12 : ∀ c, covL (r2 :: T2) c → covL (r1 :: T1) c :=
      fun c => (hcov c).mpr
    have hcov21 : ∀ c, covL (r1 :: T1) c → covL (r2 :: T2) c :=
      fun c => (hcov c).mp
    have hstart : startCut r1 = startCut r2 :=
      cutLe_antisymm (cov_start_le hsep1 hwf1 hwf2 hcov12)
        (cov_start_le hsep2 hwf2 hwf1 hcov21)
    have hend : endCut r1 = endCut r2 :=
      cutLe_antisymm (cov_end_le hsep2 hwf2 hwf1 hstart.symm hcov21)
        (cov_end_le hsep1 hwf1 hwf2 hstart hcov12)
    have hhead : r1 = r2 := range_eq_of_cuts hstart hend
    have htail : T1 = T2 :=
      cov_unique (sepChain_tail hsep1) hwf1.2 (sepChain_tail hsep2) hwf2.2
        (fun c => ⟨cov_tail_imp hsep1 hwf1 hend.symm hcov21 c,
          cov_tail_imp hsep2 hwf2 hend hcov12 c⟩)
    rw [hhead, htail]

/-!
The union loop is the adder fold over the pure two-pointer merge of the two
item lists, because once the stop flag fires all later `add`s are no-ops.
-/

/-- Pure two-pointer merge with the same branching as `unionLoop` (ties take
the left head). -/
def mergeL : List (Range α) → List (Range α) → List (Range α)
  | [], [] => []
  | l :: ls, r :: rs =>
    if r.start_pos.cmp l.start_pos = .lt then r :: mergeL (l :: ls) rs
    else l :: mergeL ls (r :: rs)
  | l :: ls, [] => l :: mergeL ls []
  | [], r :: rs => r :: mergeL [] rs
termination_by ls rs => ls.length + rs.length

theorem foldAdd_cons (a : LinearRangeAdder α) (r : Range α)
    (M : List (Range α)) : foldAdd a (r :: M) = foldAdd (addA a r) M :=
  rfl

theorem unionLoop_eq_fold :
    ∀ (n : ℕ) (ls rs : List (Range α)), ls.length + rs.length ≤ n →
      ∀ a : LinearRangeAdder α, unionLoop a ls rs = foldAdd a (mergeL ls rs)
  | _, [], [], _, a => by simp [unionLoop, mergeL, foldAdd]
  | 0, l :: ls, rs, h, a => by simp at h
  | 0, ls, r :: rs, h, a => by simp at h
  | n + 1, l :: ls, [], h, a => by
    simp only [unionLoop, mergeL, foldAdd_cons]
    by_cases hstop : (a.add l).2 = true
    · rw [if_pos hstop]
      have hU : lastUnb (addA a l).last = true := by
        rw [addA, ← add_flag]
        exact hstop
      rw [foldAdd_stuck hU]
      rfl
    · rw [if_neg hstop]
      exact unionLoop_eq_fold n ls [] (by simp at h ⊢; omega) _
  | n + 1, [], r :: rs, h, a => by
    simp only [unionLoop, mergeL, foldAdd_cons]
    by_cases hstop : (a.add r).2 = true
    · rw [if_pos hstop]
      have hU : lastUnb (addA a r).last = true := by
        rw [addA, ← add_flag]
        exact hstop
      rw [foldAdd_stuck hU]
      rfl
    · rw [if_neg hstop]
      exact unionLoop_eq_fold n [] rs (by simp at h ⊢; omega) _
  | n + 1, l :: ls, r :: rs, h, a => by
    simp only [unionLoop, mergeL]
    by_cases hc : r.start_pos.cmp l.start_pos = .lt
    · rw [if_pos hc, if_pos hc, foldAdd_cons]
      by_cases hstop : (a.add r).2 = true
      · rw [if_pos hstop]
        have hU : lastUnb (addA a r).last = true := by
          rw [addA, ← add_flag]
          exact hstop
        rw [foldAdd_stuck hU]
        rfl
      · rw [if_neg hstop]
        exact unionLoop_eq_fold n (l :: ls) rs (by simp at h ⊢; omega) _
    · rw [if_neg hc, if_neg hc, foldAdd_cons]
      by_cases hstop : (a.add l).2 = true
      · rw [if_pos hstop]
        have hU : lastUnb (addA a l).last = true := by
          rw [addA, ← add_flag]
          exact hstop
        rw [foldAdd_stuck hU]
        rfl
      · rw [if_neg hstop]
        exact unionLoop_eq_fold n ls (r :: rs) (by simp at h ⊢; omega) _

theorem unionLoop_eq_fold_all (a : LinearRangeAdder α)
    (ls rs : List (Range α)) :
    unionLoop a ls rs = foldAdd a (mergeL ls rs) :=
  unionLoop_eq_fold (ls.length + rs.length) ls rs le_rfl a

theorem mergeL_head_cases (ls rs : List (Range α)) :
    ∀ y, (mergeL ls rs).head? = some y →
      ls.head? = some y ∨ rs.head? = some y := by
  intro y hy
  match ls, rs with
  | [], [] => simp [mergeL] at hy
  | l :: ls, r :: rs =>
    by_cases hc : r.start_pos.cmp l.start_pos = .lt
    · rw [show mergeL (l :: ls) (r :: rs) = r :: mergeL (l :: ls) rs from by
        simp [mergeL, hc]] at hy
      simp only [List.head?_cons, Option.some.injEq] at hy ⊢
      exact Or.inr hy
    · rw [show mergeL (l :: ls) (r :: rs) = l :: mergeL ls (r :: rs) from by
        simp [mergeL, hc]] at hy
      simp only [List.head?_cons, Option.some.injEq] at hy ⊢
      exact Or.inl hy
  | l :: ls, [] =>
    rw [show mergeL (l :: ls) [] = l :: mergeL ls [] from by simp [mergeL]] at hy
    simp only [List.head?_cons, Option.some.injEq] at hy ⊢
    exact Or.inl hy
  | [], r :: rs =>
    rw [show mergeL [] (r :: rs) = r :: mergeL [] rs from by simp [mergeL]] at hy
    simp only [List.head?_cons, Option.some.injEq] at hy ⊢
    exact Or.inr hy

theorem sortedND_tail {x : Range α} {M : List (Range α)}
    (h : SortedND (x :: M)) : SortedND M := by
  cases M with
  | nil => trivial
  | cons y M2 => exact h.2

theorem sortedND_cons {x : Range α} {M : List (Range α)} (hM : SortedND M)
    (hx : ∀ y, M.head? = some y → cutLe (startCut x) (startCut y)) :
    SortedND (x :: M) := by
  cases M with
  | nil => trivial
  | cons y M2 => exact ⟨hx y rfl, hM⟩

theorem sortedND_head_le {x : Range α} {M : List (Range α)}
    (h : SortedND (x :: M)) :
    ∀ y, M.head? = some y → cutLe (startCut x) (startCut y) := by
  intro y hy
  cases M with
  | nil => cases hy
  | cons z M2 =>
    cases hy
    exact h.1

theorem mem_mergeL :
    ∀ (n : ℕ) (ls rs : List (Range α)), ls.length + rs.length ≤ n →
      ∀ x, x ∈ mergeL ls rs ↔ x ∈ ls ∨ x ∈ rs
  | _, [], [], _, x => by simp [mergeL]
  | 0, l :: ls, rs, h, x => by simp at h
  | 0, ls, r :: rs, h, x => by simp at h
  | n + 1, l :: ls, [], h, x => by
    rw [show mergeL (l :: ls) [] = l :: mergeL ls [] from by simp [mergeL]]
    simp only [List.mem_cons,
      mem_mergeL n ls [] (by simp at h ⊢; omega) x]
    simp
  | n + 1, [], r :: rs, h, x => by
    rw [show mergeL [] (r :: rs) = r :: mergeL [] rs from by simp [mergeL]]
    simp only [List.mem_cons,
      mem_mergeL n [] rs (by simp at h ⊢; omega) x]
    simp
  | n + 1, l :: ls, r :: rs, h, x => by
    by_cases hc : r.start_pos.cmp l.start_pos = .lt
    · rw [show mergeL (l :: ls) (r :: rs) = r :: mergeL (l :: ls) rs from by
        simp [mergeL, hc]]
      simp only [List.mem_cons,
        mem_mergeL n (l :: ls) rs (by simp at h ⊢; omega) x]
      tauto
    · rw [show mergeL (l :: ls) (r :: rs) = l :: mergeL ls (r :: rs) from by
        simp [mergeL, hc]]
      simp only [List.mem_cons,
        mem_mergeL n ls (r :: rs) (by simp at h ⊢; omega) x]
      tauto

theorem mergeL_sortedND :
    ∀ (n : ℕ) (ls rs : List (Range α)), ls.length + rs.length ≤ n →
      SortedND ls → SortedND rs → SortedND (mergeL ls rs)
  | _, [], [], _, _, _ => by simp [mergeL]; trivial
  | 0, l :: ls, rs, h, _, _ => by simp at h
  | 0, ls, r :: rs, h, _, _ => by simp at h
  | n + 1, l :: ls, [], h, h1, h2 => by
    rw [show mergeL (l :: ls) [] = l :: mergeL ls [] from by simp [mergeL]]
    refine sortedND_cons
      (mergeL_sortedND n ls [] (by simp at h ⊢; omega) (sortedND_tail h1)
        trivial) ?_
    intro y hy
    rcases mergeL_head_cases ls [] y hy with hh | hh
    · exact sortedND_head_le h1 y hh
    · cases hh
  | n + 1, [], r :: rs, h, h1, h2 => by
    rw [show mergeL [] (r :: rs) = r :: mergeL [] rs from by simp [mergeL]]
    refine sortedND_cons
      (mergeL_sortedND n [] rs (by simp at h ⊢; omega) trivial
        (sortedND_tail h2)) ?_
    intro y hy
    rcases mergeL_head_cases [] rs y hy with hh | hh
    · cases hh
    · exact sortedND_head_le h2 y hh
  | n + 1, l :: ls, r :: rs, h, h1, h2 => by
    by_cases hc : r.start_pos.cmp l.start_pos = .lt
    · rw [show mergeL (l :: ls) (r :: rs) = r :: mergeL (l :: ls) rs from by
        simp [mergeL, hc]]
      refine sortedND_cons
        (mergeL_sortedND n (l :: ls) rs (by simp at h ⊢; omega) h1
          (sortedND_tail h2)) ?_
      intro y hy
      rcases mergeL_head_cases (l :: ls) rs y hy with hh | hh
      · cases hh
        exact cutLe_of_lt (cmp_lt_iff.mp hc)
      · exact sortedND_head_le h2 y hh
    · rw [show mergeL (l :: ls) (r :: rs) = l :: mergeL ls (r :: rs) from by
        simp [mergeL, hc]]
      refine sortedND_cons
        (mergeL_sortedND n ls (r :: rs) (by simp at h ⊢; omega)
          (sortedND_tail h1) h2) ?_
      intro y hy
      rcases mergeL_head_cases ls (r :: rs) y hy with hh | hh
      · exact sortedND_head_le h1 y hh
      · cases hh
        exact not_cmp_lt_iff.mp hc

theorem covL_mergeL (ls rs : List (Range α)) (c : Cut α) :
    covL (mergeL ls rs) c ↔ covL ls c ∨ covL rs c := by
  simp only [covL]
  constructor
  · rintro ⟨r, hr, hc⟩
    rcases (mem_mergeL (ls.length + rs.length) ls rs le_rfl r).mp hr with
      h | h
    · exact Or.inl ⟨r, h, hc⟩
    · exact Or.inr ⟨r, h, hc⟩
  · rintro (⟨r, hr, hc⟩ | ⟨r, hr, hc⟩) <;>
      exact ⟨r, (mem_mergeL (ls.length + rs.length) ls rs le_rfl r).mpr
        (by tauto), hc⟩

theorem rangeSet_eq_of_items {s t : RangeSet α} (h : s.items = t.items) :
    s = t := by
  cases s
  cases t
  cases h
  rfl

theorem normalized_sortedND {s : RangeSet α} (h : Normalized s) :
    SortedND s.items :=
  sortedND_of_sortedStrict (sortedStrict_of_sep_wf h.1 h.2)

theorem is_empty_iff {s : RangeSet α} : s.is_empty = true ↔ s.items = [] := by
  rw [RangeSet.is_empty, List.isEmpty_iff]

/-- The union of two normalized sets is normalized and covers exactly the
union of the coverages. -/
theorem union_spec {s t : RangeSet α} (hs : Normalized s)
    (ht : Normalized t) :
    Normalized (s.union t)
    ∧ (∀ c, covL (s.union t).items c ↔ covL s.items c ∨ covL t.items c) := by
  rw [RangeSet.union]
  by_cases hte : t.is_empty
  · rw [if_pos hte]
    refine ⟨hs, fun c => ?_⟩
    simp [is_empty_iff.mp hte, covL_nil]
  · rw [if_neg hte]
    by_cases hse : s.is_empty
    · rw [if_pos hse]
      refine ⟨ht, fun c => ?_⟩
      simp [is_empty_iff.mp hse, covL_nil]
    · rw [if_neg hse]
      rw [unionLoop_eq_fold_all]
      have hwfm : WFall (mergeL s.items t.items) := by
        refine wfall_of_mem fun r hr => ?_
        rcases (mem_mergeL (s.items.length + t.items.length) s.items t.items
            le_rfl r).mp hr with h | h
        · exact wfall_mem hs.2 h
        · exact wfall_mem ht.2 h
      have hsm : SortedND (mergeL s.items t.items) :=
        mergeL_sortedND (s.items.length + t.items.length) s.items t.items
          le_rfl (normalized_sortedND hs) (normalized_sortedND ht)
      obtain ⟨hsep, hwfa, hcov⟩ := buildSorted_spec hwfm hsm
      refine ⟨⟨hsep, hwfa⟩, fun c => ?_⟩
      rw [hcov c, covL_mergeL]

/-- C5: `union` is commutative and associative on normalized range sets. -/
theorem C5_union_comm_assoc (A B C : RangeSet α) (hA : Normalized A)
    (hB : Normalized B) (hC : Normalized C) :
    A.union B = B.union A
    ∧ (A.union B).union C = A.union (B.union C) := by
  obtain ⟨hAB, cAB⟩ := union_spec hA hB
  obtain ⟨hBA, cBA⟩ := union_spec hB hA
  obtain ⟨hBC, cBC⟩ := union_spec hB hC
  obtain ⟨hAB_C, cAB_C⟩ := union_spec hAB hC
  obtain ⟨hA_BC, cA_BC⟩ := union_spec hA hBC
  constructor
  · refine rangeSet_eq_of_items
      (cov_unique hAB.1 hAB.2 hBA.1 hBA.2 fun c => ?_)
    rw [cAB c, cBA c]
    tauto
  · refine rangeSet_eq_of_items
      (cov_unique hAB_C.1 hAB_C.2 hA_BC.1 hA_BC.2 fun c => ?_)
    rw [cAB_C c, cA_BC c, cAB c, cBC c]
    tauto

/-- Witness for C5 at concrete normalized inputs over `ℤ`. -/
theorem C5_union_comm_assoc_witness :
    (Normalized (⟨[⟨.Included 0, .Excluded 5⟩]⟩ : RangeSet ℤ)
      ∧ Normalized (⟨[⟨.Included 3, .Excluded 8⟩]⟩ : RangeSet ℤ)
      ∧ Normalized (⟨[⟨.Included 20, .Unbounded⟩]⟩ : RangeSet ℤ))
    ∧ ((⟨[⟨.Included 0, .Excluded 5⟩]⟩ : RangeSet ℤ).union
        ⟨[⟨.Included 3, .Excluded 8⟩]⟩ =
      (⟨[⟨.Included 3, .Excluded 8⟩]⟩ : RangeSet ℤ).union
        ⟨[⟨.Included 0, .Excluded 5⟩]⟩)
    ∧ (((⟨[⟨.Included 0, .Excluded 5⟩]⟩ : RangeSet ℤ).union
        ⟨[⟨.Included 3, .Excluded 8⟩]⟩).union ⟨[⟨.Included 20, .Unbounded⟩]⟩ =
      (⟨[⟨.Included 0, .Excluded 5⟩]⟩ : RangeSet ℤ).union
        ((⟨[⟨.Included 3, .Excluded 8⟩]⟩ : RangeSet ℤ).union
          ⟨[⟨.Included 20, .Unbounded⟩]⟩)) :=
  ⟨⟨by decide, by decide, by decide⟩,
    (C5_union_comm_assoc _ _ ⟨[⟨.Included 20, .Unbounded⟩]⟩ (by decide)
      (by decide) (by decide)).1,
    (C5_union_comm_assoc _ _ _ (by decide) (by decide) (by decide)).2⟩

/-!
`RangeSet.add` is the adder fold over insertion of the new range into the
sorted item list, by the same break-elimination argument.
-/

/-- Insertion of the new range before the first item whose start is above
its own (the position where `RangeSet::add`'s loop feeds it). -/
def insL (r : Range α) : List (Range α) → List (Range α)
  | [] => [r]
  | item :: rest =>
    if r.start_pos.cmp item.start_pos = .lt then r :: item :: rest
    else item :: insL r rest

theorem addLoop_none_eq :
    ∀ (items : List (Range α)) (a : LinearRangeAdder α),
      addLoop a none items = (foldAdd a items, none) := by
  intro items
  induction items with
  | nil => intro a; rfl
  | cons item rest ih =>
    intro a
    show (if (a.add item).2 = true then ((a.add item).1, none)
      else addLoop (a.add item).1 none rest) = _
    by_cases h2 : (a.add item).2 = true
    · rw [if_pos h2, foldAdd_cons,
        foldAdd_stuck (show lastUnb (addA a item).last = true by
          rw [addA, ← add_flag]; exact h2)]
      rfl
    · rw [if_neg h2, ih, foldAdd_cons]
      rfl

theorem addLoopRes_eq_fold :
    ∀ (items : List (Range α)) (a : LinearRangeAdder α) (r : Range α),
      addLoopRes a r items = foldAdd a (insL r items) := by
  intro items
  induction items with
  | nil => intro a r; rfl
  | cons item rest ih =>
    intro a r
    by_cases hc : r.start_pos.cmp item.start_pos = .lt
    · rw [show insL r (item :: rest) = r :: item :: rest from by
        rw [insL, if_pos hc]]
      by_cases h1 : (a.add r).2 = true
      · have hU : lastUnb (addA a r).last = true := by
          rw [addA, ← add_flag]
          exact h1
        rw [addLoopRes, show addLoop a (some r) (item :: rest) =
            ((a.add r).1, none) from by
          show (if r.start_pos.cmp item.start_pos = .lt then _ else _) = _
          rw [if_pos hc, if_pos h1]]
        rw [foldAdd_cons, foldAdd_stuck hU]
        rfl
      · by_cases h2 : ((a.add r).1.add item).2 = true
        · have hU : lastUnb (addA (addA a r) item).last = true := by
            rw [addA, ← add_flag]
            exact h2
          rw [addLoopRes, show addLoop a (some r) (item :: rest) =
              (((a.add r).1.add item).1, none) from by
            show (if r.start_pos.cmp item.start_pos = .lt then _ else _) = _
            rw [if_pos hc, if_neg h1, if_pos h2]]
          rw [foldAdd_cons, foldAdd_cons, foldAdd_stuck hU]
          rfl
        · rw [addLoopRes, show addLoop a (some r) (item :: rest) =
              addLoop ((a.add r).1.add item).1 none rest from by
            show (if r.start_pos.cmp item.start_pos = .lt then _ else _) = _
            rw [if_pos hc, if_neg h1, if_neg h2],
            addLoop_none_eq, foldAdd_cons, foldAdd_cons]
          rfl
    · rw [show insL r (item :: rest) = item :: insL r rest from by
        rw [insL, if_neg hc]]
      by_cases h2 : (a.add item).2 = true
      · have hU : lastUnb (addA a item).last = true := by
          rw [addA, ← add_flag]
          exact h2
        rw [addLoopRes, show addLoop a (some r) (item :: rest) =
            ((a.add item).1, some r) from by
          show (if r.start_pos.cmp item.start_pos = .lt then _ else _) = _
          rw [if_neg hc, if_pos h2]]
        show addA (addA a item) r = foldAdd a (item :: insL r rest)
        rw [addA_stuck hU r, foldAdd_cons, foldAdd_stuck hU]
      · rw [show addLoopRes a r (item :: rest) =
            addLoopRes (a.add item).1 r rest from by
          rw [addLoopRes, addLoopRes, show addLoop a (some r) (item :: rest) =
              addLoop (a.add item).1 (some r) rest from by
            show (if r.start_pos.cmp item.start_pos = .lt then _ else _) = _
            rw [if_neg hc, if_neg h2]],
          ih, foldAdd_cons]
        rfl

theorem insL_head_cases (r : Range α) (rest : List (Range α)) :
    ∀ y, (insL r rest).head? = some y → y = r ∨ rest.head? = some y := by
  intro y hy
  match rest with
  | [] =>
    simp only [insL, List.head?_cons, Option.some.injEq] at hy
    exact Or.inl hy.symm
  | item :: rest2 =>
    rw [insL] at hy
    by_cases hc : r.start_pos.cmp item.start_pos = .lt
    · rw [if_pos hc] at hy
      simp only [List.head?_cons, Option.some.injEq] at hy
      exact Or.inl hy.symm
    · rw [if_neg hc] at hy
      simp only [List.head?_cons, Option.some.injEq] at hy ⊢
      exact Or.inr hy

theorem insL_sortedND {r : Range α} :
    ∀ {items : List (Range α)}, SortedND items → SortedND (insL r items)
  | [], _ => trivial
  | item :: rest, h => by
    rw [insL]
    by_cases hc : r.start_pos.cmp item.start_pos = .lt
    · rw [if_pos hc]
      exact ⟨cutLe_of_lt (cmp_lt_iff.mp hc), h⟩
    · rw [if_neg hc]
      refine sortedND_cons (insL_sortedND (sortedND_tail h)) ?_
      intro y hy
      rcases insL_head_cases r rest y hy with rfl | hh
      · exact not_cmp_lt_iff.mp hc
      · exact sortedND_head_le h y hh

theorem mem_insL (r : Range α) :
    ∀ (items : List (Range α)) (x : Range α),
      x ∈ insL r items ↔ x = r ∨ x ∈ items := by
  intro items
  induction items with
  | nil => intro x; simp [insL]
  | cons item rest ih =>
    intro x
    rw [insL]
    by_cases hc : r.start_pos.cmp item.start_pos = .lt
    · rw [if_pos hc]
      simp only [List.mem_cons]
      try tauto
    · rw [if_neg hc]
      simp only [List.mem_cons, ih x]
      try tauto

theorem covL_insL (r : Range α) (items : List (Range α)) (c : Cut α) :
    covL (insL r items) c ↔ covR r c ∨ covL items c := by
  simp only [covL]
  constructor
  · rintro ⟨x, hx, hc2⟩
    rcases (mem_insL r items x).mp hx with rfl | h
    · exact Or.inl hc2
    · exact Or.inr ⟨x, h, hc2⟩
  · rintro (h | ⟨x, hx, hc2⟩)
    · exact ⟨r, (mem_insL r items r).mpr (Or.inl rfl), h⟩
    · exact ⟨x, (mem_insL r items x).mpr (Or.inr hx), hc2⟩

/-- `RangeSet.add` on a normalized set with a well-formed range is
normalized and covers exactly the old set plus the new range. -/
theorem add_spec {s : RangeSet α} {r : Range α} (hs : Normalized s)
    (hr : WFr r) :
    Normalized (s.add r)
    ∧ (∀ c, covL (s.add r).items c ↔ covL s.items c ∨ covR r c) := by
  rw [RangeSet.add]
  by_cases hu : s.is_unbound
  · rw [if_pos hu]
    refine ⟨hs, fun c => ?_⟩
    rw [RangeSet.is_unbound] at hu
    rcases hsi : s.items with _ | ⟨x, rest⟩
    · rw [hsi] at hu
      cases hu
    · rcases rest with _ | ⟨y, rest2⟩
      · rw [hsi] at hu
        simp only [Range.is_unbound, Bool.and_eq_true, decide_eq_true_iff]
          at hu
        obtain ⟨hu1, hu2⟩ := hu
        constructor
        · intro h
          exact Or.inl h
        · intro h
          refine ⟨x, List.mem_cons_self x [], ?_, ?_⟩
          · rw [show startCut x = Cut.bot from startCut_eq_bot_iff.mpr hu1]
            exact cutLe_bot_left c
          · rw [show endCut x = Cut.top from endCut_eq_top_iff.mpr hu2]
            exact cutLe_top c
      · rw [hsi] at hu
        cases hu
  · rw [if_neg hu]
    by_cases hru : r.is_unbound
    · rw [if_pos hru]
      simp only [Range.is_unbound, Bool.and_eq_true, decide_eq_true_iff]
        at hru
      refine ⟨⟨trivial, hr, trivial⟩, fun c => ?_⟩
      have hcr : covR r c := by
        refine ⟨?_, ?_⟩
        · rw [show startCut r = Cut.bot from startCut_eq_bot_iff.mpr hru.1]
          exact cutLe_bot_left c
        · rw [show endCut r = Cut.top from endCut_eq_top_iff.mpr hru.2]
          exact cutLe_top c
      constructor
      · intro _
        exact Or.inr hcr
      · intro _
        exact ⟨r, List.mem_cons_self r [], hcr⟩
    · rw [if_neg hru]
      by_cases hse : s.is_empty
      · rw [if_pos hse]
        rw [is_empty_iff.mp hse]
        refine ⟨⟨trivial, hr, trivial⟩, fun c => ?_⟩
        simp [covL_cons, covL_nil]
        try tauto
      · rw [if_neg hse]
        have hres : (addLoopRes adderInit r s.items).finalize.items =
            (foldAdd adderInit (insL r s.items)).finalize.items := by
          rw [addLoopRes_eq_fold]
        have hwfi : WFall (insL r s.items) := by
          refine wfall_of_mem fun x hx => ?_
          rcases (mem_insL r s.items x).mp hx with rfl | h
          · exact hr
          · exact wfall_mem hs.2 h
        have hsi : SortedND (insL r s.items) :=
          insL_sortedND (normalized_sortedND hs)
        obtain ⟨hsep, hwfa, hcov⟩ := buildSorted_spec hwfi hsi
        refine ⟨⟨?_, ?_⟩, fun c => ?_⟩
        · show SepChain (addLoopRes adderInit r s.items).finalize.items
          rw [hres]
          exact hsep
        · show WFall (addLoopRes adderInit r s.items).finalize.items
          rw [hres]
          exact hwfa
        · show covL (addLoopRes adderInit r s.items).finalize.items c ↔ _
          rw [hres, hcov c, covL_insL]
          tauto

/-!
Sorting facts for `RangeSet.fromRanges`.
-/

theorem startLe_iff {a b : Range α} :
    startLe a b = true ↔ cutLe (startCut a) (startCut b) := by
  rw [startLe, decide_eq_true_iff]
  constructor
  · intro h
    exact not_cutLt_iff.mp (fun h2 => h (cmp_gt_iff.mpr h2))
  · intro h h2
    exact cutLt_irrefl _ (cutLt_of_lt_of_le (cmp_gt_iff.mp h2) h)

theorem sortedND_of_pairwise :
    ∀ {L : List (Range α)},
      L.Pairwise (fun a b => startLe a b = true) → SortedND L
  | [], _ => trivial
  | [_], _ => trivial
  | a :: b :: L, h => by
    rw [List.pairwise_cons] at h
    exact ⟨startLe_iff.mp (h.1 b (List.mem_cons_self b L)),
      sortedND_of_pairwise h.2⟩

/-- Bulk construction from an arbitrary well-formed list: sorts, feeds the
adder, and yields a normalized set covering exactly the input. -/
theorem fromRanges_spec {L : List (Range α)} (hwf : WFall L) :
    Normalized (RangeSet.fromRanges L)
    ∧ (∀ c, covL (RangeSet.fromRanges L).items c ↔ covL L c) := by
  have htrans : ∀ a b c : Range α,
      startLe a b = true → startLe b c = true → startLe a c = true :=
    fun a b c h1 h2 =>
      startLe_iff.mpr (cutLe_trans (startLe_iff.mp h1) (startLe_iff.mp h2))
  have htotal : ∀ a b : Range α, (startLe a b || startLe b a) = true := by
    intro a b
    simp only [Bool.or_eq_true, startLe_iff]
    exact cutLe_total (startCut a) (startCut b)
  have hsorted := List.sorted_mergeSort htrans htotal L
  have hperm := List.mergeSort_perm L startLe
  have hmem : ∀ x : Range α, x ∈ L.mergeSort startLe ↔ x ∈ L :=
    fun x => hperm.mem_iff
  have hwfs : WFall (L.mergeSort startLe) :=
    wfall_of_mem fun r hr => wfall_mem hwf ((hmem r).mp hr)
  have hsnd : SortedND (L.mergeSort startLe) := sortedND_of_pairwise hsorted
  obtain ⟨hsep, hwfa, hcov⟩ := buildSorted_spec hwfs hsnd
  refine ⟨⟨hsep, hwfa⟩, fun c => ?_⟩
  rw [show (RangeSet.fromRanges L).items =
    (foldAdd adderInit (L.mergeSort startLe)).finalize.items from rfl, hcov c]
  simp only [covL]
  constructor
  · rintro ⟨r, hr, h⟩
    exact ⟨r, (hmem r).mp hr, h⟩
  · rintro ⟨r, hr, h⟩
    exact ⟨r, (hmem r).mpr hr, h⟩

/-!
Inversion.  `invertLoop` on items that do not start at `Unbounded` is the
explicit complement builder `invAux`.
-/

theorem Bound.invert_invert (b : Bound α) : b.invert.invert = b := by
  cases b <;> rfl

theorem Bound.invert_ne_unbounded {b : Bound α} (h : b ≠ .Unbounded) :
    b.invert ≠ .Unbounded := by
  cases b <;> simp_all [Bound.invert]

theorem not_top_cutLt (c : Cut α) : ¬ cutLt .top c := by
  cases c <;> exact fun h => h

/-- Explicit form of the invert loop when no remaining item starts at
`Unbounded`: `c` is the start bound of the complement range under
construction. -/
def invAux (c : Bound α) : List (Range α) → List (Range α)
  | [] => [⟨c, .Unbounded⟩]
  | r :: rest =>
    ⟨c, r.start.invert⟩ ::
      (if r.endB = .Unbounded then [] else invAux r.endB.invert rest)

theorem invertLoop_eq_invAux :
    ∀ (items : List (Range α)) (acc : List (Range α)) (c : Bound α),
      (∀ r ∈ items, r.start ≠ .Unbounded) →
      invertLoop acc ⟨c, .Unbounded⟩ items = acc ++ invAux c items := by
  intro items
  induction items with
  | nil => intro acc c _; rfl
  | cons r rest ih =>
    intro acc c h
    show (if r.start = .Unbounded then _ else _) = _
    rw [if_neg (h r (List.mem_cons_self r rest))]
    by_cases he : r.endB = .Unbounded
    · rw [if_pos he]
      rw [show invAux c (r :: rest) = [⟨c, r.start.invert⟩] from by
        rw [invAux, if_pos he]]
    · rw [if_neg he,
        ih _ _ (fun x hx => h x (List.mem_cons_of_mem r hx)),
        show invAux c (r :: rest) =
          ⟨c, r.start.invert⟩ :: invAux r.endB.invert rest from by
          rw [invAux, if_neg he],
        List.append_assoc]
      rfl

/-- The lower cuts only appear at `Unbounded` on a list's head, thanks to
separation. -/
def NoUnbStart (L : List (Range α)) : Prop :=
  ∀ r ∈ L, r.start ≠ .Unbounded

/-- No range before the last one may end at `Unbounded`. -/
def EndsOk : List (Range α) → Prop
  | [] => True
  | [_] => True
  | r :: r2 :: rest => r.endB ≠ .Unbounded ∧ EndsOk (r2 :: rest)

/-- The touching shape inversion cannot represent, on raw bounds. -/
def noTouchB (e s : Bound α) : Prop :=
  match e, s with
  | .Included a, .Excluded b => a ≠ b
  | _, _ => True

instance noTouchBDec (e s : Bound α) : Decidable (noTouchB e s) := by
  rcases e with a | a | _ <;> rcases s with b | b | _ <;>
    first
      | exact isTrue trivial
      | exact inferInstanceAs (Decidable (_ ≠ _))

/-- The touching pattern the comparator keeps separate but inversion cannot
represent: an inclusive end meeting an exclusive start at the same value. -/
def noTouchPair (r1 r2 : Range α) : Prop :=
  noTouchB r1.endB r2.start

instance noTouchPairDec (r1 r2 : Range α) : Decidable (noTouchPair r1 r2) :=
  noTouchBDec r1.endB r2.start

/-- No two consecutive ranges touch as inclusive-end against exclusive-start
at the same value. -/
def TouchFree : List (Range α) → Prop
  | [] => True
  | [_] => True
  | r1 :: r2 :: rest => noTouchPair r1 r2 ∧ TouchFree (r2 :: rest)

instance touchFreeDec : (L : List (Range α)) → Decidable (TouchFree L)
  | [] => isTrue trivial
  | [_] => isTrue trivial
  | _ :: r2 :: rest =>
    have : Decidable (TouchFree (r2 :: rest)) := touchFreeDec (r2 :: rest)
    inferInstanceAs (Decidable (_ ∧ _))

theorem sep_noUnbStart :
    ∀ {L : List (Range α)} {r : Range α}, SepChain (r :: L) → NoUnbStart L
  | [], _, _ => fun x hx => absurd hx (List.not_mem_nil x)
  | q :: L, r, h => by
    intro x hx
    rcases List.mem_cons.mp hx with rfl | hx2
    · intro hq
      exact not_cutLt_bot _ ((startCut_eq_bot_iff.mpr hq) ▸ h.1)
    · exact sep_noUnbStart h.2 x hx2

theorem sep_endsOk : ∀ {L : List (Range α)}, SepChain L → EndsOk L
  | [], _ => trivial
  | [_], _ => trivial
  | r :: q :: L, h => by
    refine ⟨?_, sep_endsOk h.2⟩
    intro hre
    exact not_top_cutLt _ ((endCut_eq_top_iff.mpr hre) ▸ h.1)

/-- Boundary-order well-formedness of a range transfers to separation of the
two complement ranges that its inverted bounds delimit. -/
theorem inv_wf_transfer {s e : Bound α} (hs : s ≠ .Unbounded)
    (he : e ≠ .Unbounded)
    (h : cutLt (kappa (.Start s)) (kappa (.End e))) :
    cutLt (kappa (.End s.invert)) (kappa (.Start e.invert)) := by
  rcases s with a | a | _
  · rcases e with b | b | _
    · rcases (show a < b ∨ (a = b ∧ (0:ℕ) < 2) from h) with h2 | ⟨rfl, _⟩
      · exact Or.inl h2
      · exact Or.inr ⟨rfl, by omega⟩
    · rcases (show a < b ∨ (a = b ∧ (0:ℕ) < 0) from h) with h2 | ⟨_, h3⟩
      · exact Or.inl h2
      · omega
    · exact absurd rfl he
  · rcases e with b | b | _
    · rcases (show a < b ∨ (a = b ∧ (4:ℕ) < 2) from h) with h2 | ⟨_, h3⟩
      · exact Or.inl h2
      · omega
    · rcases (show a < b ∨ (a = b ∧ (4:ℕ) < 0) from h) with h2 | ⟨_, h3⟩
      · exact Or.inl h2
      · omega
    · exact absurd rfl he
  · exact absurd rfl hs

/-- Boundary-order separation of two non-touching consecutive ranges
transfers to well-formedness of the complement range between them. -/
theorem inv_gap_transfer {e s : Bound α} (he : e ≠ .Unbounded)
    (hs : s ≠ .Unbounded) (hnt : noTouchB e s)
    (h : cutLt (kappa (.End e)) (kappa (.Start s))) :
    cutLt (kappa (.Start e.invert)) (kappa (.End s.invert)) := by
  rcases e with a | a | _
  · rcases s with b | b | _
    · rcases (show a < b ∨ (a = b ∧ (2:ℕ) < 0) from h) with h2 | ⟨_, h3⟩
      · exact Or.inl h2
      · omega
    · rcases (show a < b ∨ (a = b ∧ (2:ℕ) < 4) from h) with h2 | ⟨rfl, _⟩
      · exact Or.inl h2
      · exact absurd rfl (show a ≠ a from hnt)
    · exact absurd rfl hs
  · rcases s with b | b | _
    · rcases (show a < b ∨ (a = b ∧ (0:ℕ) < 0) from h) with h2 | ⟨_, h3⟩
      · exact Or.inl h2
      · omega
    · rcases (show a < b ∨ (a = b ∧ (0:ℕ) < 4) from h) with h2 | ⟨rfl, _⟩
      · exact Or.inl h2
      · exact Or.inr ⟨rfl, by omega⟩
    · exact absurd rfl hs
  · exact absurd rfl he

theorem end_kappa_ne_bot (b : Bound α) : kappa (.End b) ≠ .bot := by
  cases b <;> simp [kappa]

/-- The complement builder produces a separated, well-formed list, provided
the input is separated, well-formed, touch-free, has no `Unbounded` starts,
and the pending complement start fits below the first inverted start. -/
theorem invAux_normalized :
    ∀ (L : List (Range α)) (c : Bound α), SepChain L → WFall L →
      NoUnbStart L → TouchFree L →
      (∀ x, L.head? = some x →
        cutLt (kappa (.Start c)) (kappa (.End x.start.invert))) →
      SepChain (invAux c L) ∧ WFall (invAux c L)
  | [], c, _, _, _, _, _ => by
    refine ⟨trivial, ?_, trivial⟩
    show cutLt (kappa (.Start c)) (kappa (.End .Unbounded))
    rcases c with a | a | _ <;> exact trivial
  | r :: rest, c, hsep, hwf, hnu, htf, hc => by
    obtain ⟨s1, e1⟩ := r
    by_cases he : e1 = .Unbounded
    · cases he
      have hrest : rest = [] := by
        cases rest with
        | nil => rfl
        | cons q rest2 =>
          exact absurd hsep.1 (by
            rw [show endCut (⟨s1, .Unbounded⟩ : Range α) = Cut.top from rfl]
            exact not_top_cutLt _)
      cases hrest
      rw [show invAux c [(⟨s1, .Unbounded⟩ : Range α)] =
        [⟨c, s1.invert⟩] from by rw [invAux]; rfl]
      exact ⟨trivial, hc _ rfl, trivial⟩
    · rw [show invAux c ((⟨s1, e1⟩ : Range α) :: rest) =
        ⟨c, s1.invert⟩ :: invAux e1.invert rest from by
        rw [invAux, if_neg he]]
      have hs1 : s1 ≠ .Unbounded :=
        hnu ⟨s1, e1⟩ (List.mem_cons_self _ rest)
      have hlink : cutLt (kappa (.End s1.invert)) (kappa (.Start e1.invert)) :=
        inv_wf_transfer hs1 he hwf.1
      have hrec : SepChain (invAux e1.invert rest)
          ∧ WFall (invAux e1.invert rest) := by
        refine invAux_normalized rest e1.invert (sepChain_tail hsep) hwf.2
          (fun x hx => hnu x (List.mem_cons_of_mem _ hx)) ?_ ?_
        · cases rest with
          | nil => trivial
          | cons q rest2 => exact htf.2
        · intro x hx
          cases rest with
          | nil => cases hx
          | cons q rest2 =>
            cases hx
            have hqs : x.start ≠ .Unbounded :=
              hnu x (List.mem_cons_of_mem _ (List.mem_cons_self x rest2))
            refine inv_gap_transfer he hqs ?_ hsep.1
            exact htf.1
      refine ⟨?_, hc _ rfl, hrec.2⟩
      have hheadstart : ∀ y M, invAux e1.invert rest = y :: M →
          y.start = e1.invert := by
        intro y M hy
        cases rest with
        | nil =>
          rw [invAux] at hy
          cases hy
          rfl
        | cons q rest2 =>
          rw [invAux] at hy
          cases hy
          rfl
      rcases hi : invAux e1.invert rest with _ | ⟨y, M⟩
      · trivial
      · refine ⟨?_, hi ▸ hrec.1⟩
        show cutLt (kappa (.End s1.invert)) (startCut y)
        rw [startCut, Range.start_pos, hheadstart y M hi]
        exact hlink
  termination_by L => L.length

/-!
Round trip of inversion: inverting twice restores a normalized set.
-/

theorem endsOk_tail {r : Range α} {M : List (Range α)}
    (h : EndsOk (r :: M)) : EndsOk M := by
  cases M with
  | nil => trivial
  | cons q M2 => exact h.2

theorem invAux_ne_nil (c : Bound α) (M : List (Range α)) :
    invAux c M ≠ [] := by
  cases M <;> rw [invAux] <;> exact fun h => List.noConfusion h

theorem invAux_noUnbStart :
    ∀ (M : List (Range α)) (c : Bound α), c ≠ .Unbounded →
      NoUnbStart (invAux c M)
  | [], c, hc => by
    intro x hx
    rw [invAux] at hx
    rcases List.mem_singleton.mp hx with rfl
    exact hc
  | r :: rest, c, hc => by
    intro x hx
    rw [invAux] at hx
    rcases List.mem_cons.mp hx with rfl | hx2
    · exact hc
    · by_cases he : r.endB = .Unbounded
      · rw [if_pos he] at hx2
        exact absurd hx2 (List.not_mem_nil x)
      · rw [if_neg he] at hx2
        exact invAux_noUnbStart rest r.endB.invert
          (Bound.invert_ne_unbounded he) x hx2

theorem invAux_cons (c : Bound α) (M : List (Range α)) :
    ∃ b T, invAux c M = ⟨c, b⟩ :: T := by
  cases M with
  | nil => exact ⟨.Unbounded, [], by rw [invAux]⟩
  | cons r rest =>
    exact ⟨r.start.invert,
      if r.endB = .Unbounded then [] else invAux r.endB.invert rest,
      by rw [invAux]⟩

theorem is_unbound_cons_false {y : Range α} {M : List (Range α)}
    (h : y.start ≠ .Unbounded ∨ y.endB ≠ .Unbounded) :
    RangeSet.is_unbound (⟨y :: M⟩ : RangeSet α) = false := by
  cases M with
  | nil =>
    show y.is_unbound = false
    rw [Range.is_unbound]
    rcases h with h | h <;> simp [h]
  | cons z M2 => rfl

theorem is_empty_cons_false {y : Range α} {M : List (Range α)} :
    RangeSet.is_empty (⟨y :: M⟩ : RangeSet α) = false := rfl

/-- Applying the complement builder twice restores the suffix it encoded,
for lists whose starts are bounded and whose ends are bounded except at the
last range. -/
theorem invAux_roundtrip :
    ∀ (rest : List (Range α)) (s e : Bound α),
      NoUnbStart rest → EndsOk rest →
      invAux s (invAux e.invert rest) = ⟨s, e⟩ :: rest
  | [], s, e, _, _ => by
    rw [invAux, invAux]
    simp [Bound.invert_invert]
  | q :: rest2, s, e, hnu, hok => by
    obtain ⟨qs, qe⟩ := q
    have hqs : qs ≠ .Unbounded := by
      have := hnu ⟨qs, qe⟩ (List.mem_cons_self _ rest2)
      exact this
    have hqsi : qs.invert ≠ .Unbounded := Bound.invert_ne_unbounded hqs
    by_cases hqe : qe = .Unbounded
    · cases hqe
      have h2 : rest2 = [] := by
        cases rest2 with
        | nil => rfl
        | cons w rest3 => exact absurd rfl hok.1
      cases h2
      rw [show invAux e.invert [(⟨qs, .Unbounded⟩ : Range α)] =
        [⟨e.invert, qs.invert⟩] from by rw [invAux]; rfl]
      rw [show invAux s [(⟨e.invert, qs.invert⟩ : Range α)] =
        [⟨s, e.invert.invert⟩, ⟨qs.invert.invert, .Unbounded⟩] from by
          rw [invAux, if_neg]
          · rw [invAux]
          · exact hqsi]
      rw [Bound.invert_invert, Bound.invert_invert]
    · rw [show invAux e.invert ((⟨qs, qe⟩ : Range α) :: rest2) =
        ⟨e.invert, qs.invert⟩ :: invAux qe.invert rest2 from by
          rw [invAux, if_neg]
          exact hqe]
      rw [show invAux s ((⟨e.invert, qs.invert⟩ : Range α)
            :: invAux qe.invert rest2) =
        ⟨s, e.invert.invert⟩
          :: invAux qs.invert.invert (invAux qe.invert rest2) from by
          rw [invAux, if_neg]
          exact hqsi]
      rw [Bound.invert_invert, Bound.invert_invert,
        invAux_roundtrip rest2 qs qe
          (fun x hx => hnu x (List.mem_cons_of_mem _ hx))
          (endsOk_tail hok)]

/-- Double inversion restores any set whose items are separated.  Stated on
the item list of a set that takes neither fast path of `invert`. -/
theorem invert_invert_general {s0 e0 : Bound α} {rest : List (Range α)}
    (hsep : SepChain ((⟨s0, e0⟩ : Range α) :: rest))
    (hub : RangeSet.is_unbound (⟨⟨s0, e0⟩ :: rest⟩ : RangeSet α) = false) :
    (⟨⟨s0, e0⟩ :: rest⟩ : RangeSet α).invert.invert
      = ⟨⟨s0, e0⟩ :: rest⟩ := by
  have hnu : NoUnbStart rest := sep_noUnbStart hsep
  have hok : EndsOk rest := endsOk_tail (sep_endsOk hsep)
  have hinv1 : (⟨⟨s0, e0⟩ :: rest⟩ : RangeSet α).invert
      = ⟨invertLoop [] ⟨.Unbounded, .Unbounded⟩ (⟨s0, e0⟩ :: rest)⟩ := by
    rw [RangeSet.invert, is_empty_cons_false, hub]
    simp only [Bool.false_eq_true, if_false]
    rfl
  by_cases hs0 : s0 = .Unbounded
  · cases hs0
    have he0 : e0 ≠ .Unbounded := by
      intro he
      cases he
      cases rest with
      | nil =>
        rw [show RangeSet.is_unbound
          (⟨[(⟨.Unbounded, .Unbounded⟩ : Range α)]⟩ : RangeSet α) = true
          from rfl] at hub
        exact Bool.noConfusion hub
      | cons q rest2 =>
        exact not_top_cutLt _
          ((endCut_eq_top_iff.mpr rfl :
            endCut (⟨.Unbounded, .Unbounded⟩ : Range α) = Cut.top) ▸ hsep.1)
    have hstep : invertLoop [] (⟨.Unbounded, .Unbounded⟩ : Range α)
        ((⟨.Unbounded, e0⟩ : Range α) :: rest)
        = invAux e0.invert rest := by
      rw [show invertLoop [] (⟨.Unbounded, .Unbounded⟩ : Range α)
          ((⟨.Unbounded, e0⟩ : Range α) :: rest)
          = invertLoop [] ⟨e0.invert, .Unbounded⟩ rest from by
          rw [invertLoop, if_pos rfl]
          try rfl]
      exact invertLoop_eq_invAux rest [] e0.invert hnu
    rw [hinv1, hstep]
    obtain ⟨b, T, hbt⟩ := invAux_cons e0.invert rest
    have hub2 : RangeSet.is_unbound
        (⟨invAux e0.invert rest⟩ : RangeSet α) = false := by
      rw [hbt]
      exact is_unbound_cons_false (Or.inl (Bound.invert_ne_unbounded he0))
    have hinv2 : (⟨invAux e0.invert rest⟩ : RangeSet α).invert
        = ⟨invertLoop [] ⟨.Unbounded, .Unbounded⟩ (invAux e0.invert rest)⟩
        := by
      rw [RangeSet.invert, hbt, is_empty_cons_false, ← hbt, hub2]
      simp only [Bool.false_eq_true, if_false]
      rfl
    rw [hinv2,
      invertLoop_eq_invAux (invAux e0.invert rest) [] .Unbounded
        (invAux_noUnbStart rest e0.invert (Bound.invert_ne_unbounded he0)),
      List.nil_append, invAux_roundtrip rest .Unbounded e0 hnu hok]
  · have hnuAll : NoUnbStart ((⟨s0, e0⟩ : Range α) :: rest) := by
      intro x hx
      rcases List.mem_cons.mp hx with rfl | hx2
      · exact hs0
      · exact hnu x hx2
    have hstep : invertLoop [] (⟨.Unbounded, .Unbounded⟩ : Range α)
        ((⟨s0, e0⟩ : Range α) :: rest)
        = invAux .Unbounded ((⟨s0, e0⟩ : Range α) :: rest) :=
      invertLoop_eq_invAux _ [] .Unbounded hnuAll
    rw [hinv1, hstep]
    by_cases he0 : e0 = .Unbounded
    · cases he0
      have hrest : rest = [] := by
        cases rest with
        | nil => rfl
        | cons q rest2 =>
          exact absurd hsep.1 (by
            rw [show endCut (⟨s0, .Unbounded⟩ : Range α) = Cut.top from rfl]
            exact not_top_cutLt _)
      cases hrest
      rw [show invAux .Unbounded [(⟨s0, .Unbounded⟩ : Range α)]
          = [⟨.Unbounded, s0.invert⟩] from by rw [invAux]; rfl]
      have hub2 : RangeSet.is_unbound
          (⟨[(⟨.Unbounded, s0.invert⟩ : Range α)]⟩ : RangeSet α) = false :=
        is_unbound_cons_false (Or.inr (Bound.invert_ne_unbounded hs0))
      rw [RangeSet.invert, is_empty_cons_false, hub2]
      simp only [Bool.false_eq_true, if_false]
      rw [show invertLoop [] Range.unbound
          [(⟨.Unbounded, s0.invert⟩ : Range α)]
          = [⟨s0.invert.invert, .Unbounded⟩] from by
          rw [invertLoop, if_pos rfl, invertLoop]
          try rfl]
      rw [Bound.invert_invert]
    · rw [show invAux .Unbounded ((⟨s0, e0⟩ : Range α) :: rest)
          = ⟨.Unbounded, s0.invert⟩ :: invAux e0.invert rest from by
          rw [invAux, if_neg]
          exact he0]
      have hub2 : RangeSet.is_unbound
          (⟨(⟨.Unbounded, s0.invert⟩ : Range α)
            :: invAux e0.invert rest⟩ : RangeSet α) = false := by
        cases hq : invAux e0.invert rest with
        | nil => exact absurd hq (invAux_ne_nil _ _)
        | cons z M2 => rfl
      rw [RangeSet.invert, is_empty_cons_false, hub2]
      simp only [Bool.false_eq_true, if_false]
      rw [show invertLoop [] Range.unbound
          ((⟨.Unbounded, s0.invert⟩ : Range α) :: invAux e0.invert rest)
          = invertLoop [] ⟨s0.invert.invert, .Unbounded⟩
              (invAux e0.invert rest) from by
          rw [invertLoop, if_pos rfl]
          try rfl]
      rw [Bound.invert_invert,
        invertLoop_eq_invAux (invAux e0.invert rest) [] s0
          (invAux_noUnbStart rest e0.invert (Bound.invert_ne_unbounded he0)),
        List.nil_append, invAux_roundtrip rest s0 e0 hnu hok]

theorem normalized_empty : Normalized (RangeSet.empty : RangeSet α) :=
  ⟨trivial, trivial⟩

theorem normalized_unbound : Normalized (RangeSet.unbound : RangeSet α) :=
  ⟨trivial, trivial, trivial⟩

theorem touchFree_tail {r : Range α} {M : List (Range α)}
    (h : TouchFree (r :: M)) : TouchFree M := by
  cases M with
  | nil => trivial
  | cons q M2 => exact h.2

/-- `invert` keeps a set normalized when no two consecutive items touch as
inclusive end against exclusive start at the same value (the one adjacency
the builder cannot complement without making an ill-formed range). -/
theorem invert_normalized {s : RangeSet α} (hn : Normalized s)
    (htf : TouchFree s.items) : Normalized s.invert := by
  obtain ⟨hsep, hwf⟩ := hn
  rcases hitems : s.items with _ | ⟨r, rest⟩
  · rw [rangeSet_eq_of_items (t := RangeSet.empty) hitems]
    exact normalized_unbound
  · have hs2 : s = ⟨r :: rest⟩ := rangeSet_eq_of_items hitems
    subst hs2
    obtain ⟨s0, e0⟩ := r
    by_cases hub : RangeSet.is_unbound (⟨⟨s0, e0⟩ :: rest⟩ : RangeSet α)
        = true
    · cases rest with
      | cons q rest2 =>
        rw [show RangeSet.is_unbound
          (⟨⟨s0, e0⟩ :: q :: rest2⟩ : RangeSet α) = false from rfl] at hub
        exact Bool.noConfusion hub
      | nil =>
        have hub2 : (⟨s0, e0⟩ : Range α).is_unbound = true := hub
        simp only [Range.is_unbound, Bool.and_eq_true,
          decide_eq_true_iff] at hub2
        obtain ⟨rfl, rfl⟩ := hub2
        exact normalized_empty
    · have hubf : RangeSet.is_unbound (⟨⟨s0, e0⟩ :: rest⟩ : RangeSet α)
          = false := by
        cases h2 : RangeSet.is_unbound (⟨⟨s0, e0⟩ :: rest⟩ : RangeSet α) with
        | false => rfl
        | true => exact absurd h2 hub
      have hinv1 : (⟨⟨s0, e0⟩ :: rest⟩ : RangeSet α).invert
          = ⟨invertLoop [] ⟨.Unbounded, .Unbounded⟩ (⟨s0, e0⟩ :: rest)⟩ := by
        rw [RangeSet.invert, is_empty_cons_false, hubf]
        simp only [Bool.false_eq_true, if_false]
        rfl
      have hnu : NoUnbStart rest := sep_noUnbStart hsep
      by_cases hs0 : s0 = .Unbounded
      · cases hs0
        have he0 : e0 ≠ .Unbounded := by
          intro he
          cases he
          cases rest with
          | nil =>
            rw [show RangeSet.is_unbound
              (⟨[(⟨.Unbounded, .Unbounded⟩ : Range α)]⟩ : RangeSet α) = true
              from rfl] at hubf
            exact Bool.noConfusion hubf
          | cons q rest2 =>
            exact not_top_cutLt _
              ((endCut_eq_top_iff.mpr rfl :
                endCut (⟨.Unbounded, .Unbounded⟩ : Range α) = Cut.top)
                ▸ hsep.1)
        have hstep : invertLoop [] (⟨.Unbounded, .Unbounded⟩ : Range α)
            ((⟨.Unbounded, e0⟩ : Range α) :: rest)
            = invAux e0.invert rest := by
          rw [show invertLoop [] (⟨.Unbounded, .Unbounded⟩ : Range α)
              ((⟨.Unbounded, e0⟩ : Range α) :: rest)
              = invertLoop [] ⟨e0.invert, .Unbounded⟩ rest from by
              rw [invertLoop, if_pos rfl]
              try rfl]
          exact invertLoop_eq_invAux rest [] e0.invert hnu
        rw [hinv1, hstep]
        have hrec := invAux_normalized rest e0.invert (sepChain_tail hsep)
          hwf.2 hnu (touchFree_tail htf) (fun x hx => by
            cases rest with
            | nil => cases hx
            | cons q rest2 =>
              cases hx
              have hqs : x.start ≠ .Unbounded :=
                hnu x (List.mem_cons_self x rest2)
              exact inv_gap_transfer he0 hqs htf.1 hsep.1)
        exact ⟨hrec.1, hrec.2⟩
      · have hnuAll : NoUnbStart ((⟨s0, e0⟩ : Range α) :: rest) := by
          intro x hx
          rcases List.mem_cons.mp hx with rfl | hx2
          · exact hs0
          · exact hnu x hx2
        have hstep : invertLoop [] (⟨.Unbounded, .Unbounded⟩ : Range α)
            ((⟨s0, e0⟩ : Range α) :: rest)
            = invAux .Unbounded ((⟨s0, e0⟩ : Range α) :: rest) :=
          invertLoop_eq_invAux _ [] .Unbounded hnuAll
        rw [hinv1, hstep]
        have hrec := invAux_normalized ((⟨s0, e0⟩ : Range α) :: rest)
          .Unbounded hsep hwf hnuAll htf (fun x hx => by
            cases hx
            rw [show kappa (PositionalBound.Start
              (.Unbounded : Bound α)) = Cut.bot from rfl]
            exact cutLt_bot_iff.mpr (end_kappa_ne_bot _))
        exact ⟨hrec.1, hrec.2⟩

/-- C4: for every normalized set, inverting twice restores the set exactly,
and the boundary cases hold: the inverse of the empty set is the unbounded
set and the inverse of the unbounded set is the empty set. -/
theorem C4_invert_involutive (A : RangeSet α) (hA : Normalized A) :
    A.invert.invert = A
    ∧ (RangeSet.empty : RangeSet α).invert = RangeSet.unbound
    ∧ (RangeSet.unbound : RangeSet α).invert = RangeSet.empty := by
  refine ⟨?_, rfl, rfl⟩
  obtain ⟨hsep, hwf⟩ := hA
  rcases hitems : A.items with _ | ⟨r, rest⟩
  · rw [rangeSet_eq_of_items (t := RangeSet.empty) hitems]
    rfl
  · have hA2 : A = ⟨r :: rest⟩ := rangeSet_eq_of_items hitems
    subst hA2
    obtain ⟨s0, e0⟩ := r
    by_cases hub : RangeSet.is_unbound (⟨⟨s0, e0⟩ :: rest⟩ : RangeSet α)
        = true
    · cases rest with
      | cons q rest2 =>
        rw [show RangeSet.is_unbound
          (⟨⟨s0, e0⟩ :: q :: rest2⟩ : RangeSet α) = false from rfl] at hub
        exact Bool.noConfusion hub
      | nil =>
        have hub2 : (⟨s0, e0⟩ : Range α).is_unbound = true := hub
        simp only [Range.is_unbound, Bool.and_eq_true,
          decide_eq_true_iff] at hub2
        obtain ⟨rfl, rfl⟩ := hub2
        rfl
    · have hubf : RangeSet.is_unbound (⟨⟨s0, e0⟩ :: rest⟩ : RangeSet α)
          = false := by
        cases h2 : RangeSet.is_unbound (⟨⟨s0, e0⟩ :: rest⟩ : RangeSet α) with
        | false => rfl
        | true => exact absurd h2 hub
      exact invert_invert_general hsep hubf

/-- Instantiation of the double-inversion theorem at a concrete normalized
set over the integers. -/
theorem C4_invert_involutive_witness :
    Normalized (⟨[⟨.Included 0, .Excluded 5⟩]⟩ : RangeSet ℤ)
    ∧ ((⟨[⟨.Included 0, .Excluded 5⟩]⟩ : RangeSet ℤ).invert.invert
        = ⟨[⟨.Included 0, .Excluded 5⟩]⟩
      ∧ (RangeSet.empty : RangeSet ℤ).invert = RangeSet.unbound
      ∧ (RangeSet.unbound : RangeSet ℤ).invert = RangeSet.empty) :=
  ⟨by decide, C4_invert_involutive _ (by decide)⟩

/-!
The normalization invariant across the public constructors, and the gap
property the specification asserts between consecutive intervals.
-/

/-- The separation the specification asserts between consecutive intervals:
some point of the domain lies strictly between the first range's end and
the second range's start (a nonempty gap).  Written from the
specification's words, for comparison with the separation the code
maintains. -/
def PtGap (r1 r2 : Range α) : Prop :=
  ∃ x : α, r1.end_pos.cmpVal x = .lt ∧ r2.start_pos.cmpVal x = .gt

/-- C3 counterexample: the union of two normalized sets over the integers
produces two consecutive intervals `[0, 5]` and `(5, 10)` with no point
between them: the comparator orders inclusive end `5` strictly below
exclusive start `5`, so the adder keeps them separate even though their
union is the contiguous block `[0, 10)`.  This refutes the claimed
nonempty gap between consecutive intervals of an operation's result. -/
theorem C3_gap_counterexample :
    Normalized (⟨[⟨.Included 0, .Included 5⟩]⟩ : RangeSet ℤ)
    ∧ Normalized (⟨[⟨.Excluded 5, .Excluded 10⟩]⟩ : RangeSet ℤ)
    ∧ ((⟨[⟨.Included 0, .Included 5⟩]⟩ : RangeSet ℤ).union
          ⟨[⟨.Excluded 5, .Excluded 10⟩]⟩).items
        = [⟨.Included 0, .Included 5⟩, ⟨.Excluded 5, .Excluded 10⟩]
    ∧ ¬ PtGap (⟨.Included 0, .Included 5⟩ : Range ℤ)
        ⟨.Excluded 5, .Excluded 10⟩ := by
  refine ⟨by decide, by decide, ?_, ?_⟩
  · simp [RangeSet.union, RangeSet.is_empty, unionLoop, LinearRangeAdder.add,
      lastUnb, LinearRangeAdder.finalize, adderInit,
      Range.start_pos, Range.end_pos, PositionalBound.cmp,
      compare_lt_iff_lt, compare_eq_iff_eq, compare_gt_iff_gt]
  · rintro ⟨x, h1, h2⟩
    rw [cmpVal_lt_iff] at h1
    rw [cmpVal_gt_iff] at h2
    rcases (show (5:ℤ) < x ∨ ((5:ℤ) = x ∧ (2:ℕ) < 1) from h1) with
      ha | ⟨_, hb⟩
    · rcases (show x < (5:ℤ) ∨ (x = (5:ℤ) ∧ (1:ℕ) < 4) from h2) with
        hc | ⟨rfl, _⟩
      · omega
      · omega
    · omega

/-- C3 (amended): every public constructor yields a set whose items are
well-formed ranges, strictly sorted by lower boundary, and strictly
separated in the comparator's boundary order — which permits an inclusive
end to touch an exclusive start at the same value (`C3_gap_counterexample`
refutes the stronger nonempty-gap reading).  `invert` preserves the
invariant when no two consecutive items touch that way; with a touching
pair it emits an ill-formed range, so `intersection` and `difference`
inherit the invariant only under the same proviso. -/
theorem C3_normalization :
    (Normalized (RangeSet.empty : RangeSet α)
      ∧ Normalized (RangeSet.unbound : RangeSet α))
    ∧ (∀ L : List (Range α), WFall L → Normalized (RangeSet.fromRanges L))
    ∧ (∀ (s : RangeSet α) (r : Range α), Normalized s → WFr r →
        Normalized (s.add r))
    ∧ (∀ A B : RangeSet α, Normalized A → Normalized B →
        Normalized (A.union B))
    ∧ (∀ s : RangeSet α, Normalized s → TouchFree s.items →
        Normalized s.invert)
    ∧ (∀ s : RangeSet α, Normalized s → SortedStrict s.items) :=
  ⟨⟨normalized_empty, normalized_unbound⟩,
    fun _ hL => (fromRanges_spec hL).1,
    fun _ _ hs hr => (add_spec hs hr).1,
    fun _ _ hA hB => (union_spec hA hB).1,
    fun _ hs htf => invert_normalized hs htf,
    fun _ hs => sortedStrict_of_sep_wf hs.1 hs.2⟩

/-- Instantiation of the amended normalization theorem at concrete inputs
over the integers. -/
theorem C3_normalization_witness :
    (WFall [(⟨.Included 7, .Excluded 9⟩ : Range ℤ), ⟨.Included 0, .Excluded 3⟩]
      ∧ Normalized (RangeSet.fromRanges
          [(⟨.Included 7, .Excluded 9⟩ : Range ℤ), ⟨.Included 0, .Excluded 3⟩]))
    ∧ (Normalized (⟨[⟨.Included 0, .Excluded 3⟩]⟩ : RangeSet ℤ)
      ∧ WFr (⟨.Included 7, .Excluded 9⟩ : Range ℤ)
      ∧ Normalized ((⟨[⟨.Included 0, .Excluded 3⟩]⟩ : RangeSet ℤ).add
          ⟨.Included 7, .Excluded 9⟩))
    ∧ Normalized ((⟨[⟨.Included 0, .Excluded 3⟩]⟩ : RangeSet ℤ).union
          ⟨[⟨.Included 7, .Excluded 9⟩]⟩)
    ∧ (TouchFree (⟨[⟨.Included 0, .Excluded 3⟩]⟩ : RangeSet ℤ).items
      ∧ Normalized (⟨[⟨.Included 0, .Excluded 3⟩]⟩ : RangeSet ℤ).invert)
    ∧ SortedStrict (⟨[⟨.Included 0, .Excluded 3⟩]⟩ : RangeSet ℤ).items :=
  ⟨⟨by decide, C3_normalization.2.1 _ (by decide)⟩,
    ⟨by decide, by decide,
      C3_normalization.2.2.1 _ _ (by decide) (by decide)⟩,
    C3_normalization.2.2.2.1 _ _ (by decide) (by decide),
    ⟨by decide, C3_normalization.2.2.2.2.1 _ (by decide) (by decide)⟩,
    C3_normalization.2.2.2.2.2 _ (by decide)⟩

/-!
Correctness of `contains` over a sorted item list.
-/

theorem sortedND_le_of_mem :
    ∀ {L : List (Range α)} {r q : Range α}, SortedND (r :: L) → q ∈ L →
      cutLe (startCut r) (startCut q)
  | [], _, q, _, hq => absurd hq (List.not_mem_nil q)
  | z :: L2, r, q, h, hq => by
    rcases List.mem_cons.mp hq with rfl | hq2
    · exact h.1
    · exact cutLe_trans h.1 (sortedND_le_of_mem h.2 hq2)

/-- Soundness of the early exit of `contains`: once an item's lower
boundary is not below `x`, no item of the (sorted) remainder contains
`x`. -/
theorem contains_break {x : α} {L : List (Range α)} {r : Range α}
    (hs : SortedND (r :: L)) (hr : ¬ (r.start_pos.cmpVal x = .lt)) :
    ∀ q ∈ r :: L, q.contains x = false := by
  intro q hq
  cases hcq : q.contains x with
  | false => rfl
  | true =>
    exfalso
    rw [Range.contains] at hcq
    simp only [Bool.and_eq_true, decide_eq_true_iff] at hcq
    have hq1 : cutLt (kappa q.start_pos) (iota x) := cmpVal_lt_iff.mp hcq.1
    have hrg : r.start_pos.cmpVal x = .gt :=
      (cmpVal_lt_or_gt _ _).resolve_left hr
    have hr1 : cutLt (iota x) (kappa r.start_pos) := cmpVal_gt_iff.mp hrg
    rcases List.mem_cons.mp hq with rfl | hq2
    · exact cutLt_irrefl _ (cutLt_trans hq1 hr1)
    · have hle : cutLe (startCut r) (startCut q) :=
        sortedND_le_of_mem hs hq2
      exact cutLt_irrefl _ (cutLt_trans (cutLt_of_lt_of_le hr1 hle) hq1)

/-- The scan of `contains` answers exactly membership in some item, on any
list with nondecreasing starts. -/
theorem containsLoop_iff {x : α} :
    ∀ {L : List (Range α)}, SortedND L →
      (containsLoop x L = true ↔ ∃ q ∈ L, q.contains x = true)
  | [], _ => by simp [containsLoop]
  | r :: rest, h => by
    rw [containsLoop]
    by_cases h1 : r.start_pos.cmpVal x = .lt
    · rw [if_pos h1]
      by_cases h2 : r.end_pos.cmpVal x = .gt
      · rw [if_pos h2]
        constructor
        · intro _
          refine ⟨r, List.mem_cons_self r rest, ?_⟩
          rw [Range.contains]
          simp [h1, h2]
        · intro _
          rfl
      · rw [if_neg h2]
        rw [containsLoop_iff (sortedND_tail h)]
        constructor
        · rintro ⟨q, hq, hcq⟩
          exact ⟨q, List.mem_cons_of_mem r hq, hcq⟩
        · rintro ⟨q, hq, hcq⟩
          rcases List.mem_cons.mp hq with rfl | hq2
          · rw [Range.contains] at hcq
            simp only [Bool.and_eq_true, decide_eq_true_iff] at hcq
            exact absurd hcq.2 h2
          · exact ⟨q, hq2, hcq⟩
    · rw [if_neg h1]
      constructor
      · intro hf
        exact Bool.noConfusion hf
      · rintro ⟨q, hq, hcq⟩
        rw [contains_break h h1 q hq] at hcq
        exact Bool.noConfusion hcq

/-- C7: on a normalized set, `contains x` is true exactly when some item
contains `x`; and the early exit is sound: as soon as a scanned item's
lower boundary is found not to be below `x`, no item from that point of
the sorted sequence onward contains `x`, so stopping cannot change the
answer. -/
theorem C7_contains_correct (A : RangeSet α) (x : α) (hA : Normalized A) :
    (A.contains x = true ↔ ∃ r ∈ A.items, r.contains x = true)
    ∧ (∀ (r : Range α) (rest : List (Range α)), SortedND (r :: rest) →
        ¬ (r.start_pos.cmpVal x = .lt) →
        ∀ q ∈ r :: rest, q.contains x = false) := by
  refine ⟨?_, fun r rest hs hr q hq => contains_break hs hr q hq⟩
  exact containsLoop_iff
    (sortedND_of_sortedStrict (sortedStrict_of_sep_wf hA.1 hA.2))

/-- Instantiation of the `contains` correctness theorem at a concrete
normalized set and scalar over the integers. -/
theorem C7_contains_correct_witness :
    Normalized
      (⟨[⟨.Included 0, .Excluded 3⟩, ⟨.Included 7, .Excluded 9⟩]⟩
        : RangeSet ℤ)
    ∧ (((⟨[⟨.Included 0, .Excluded 3⟩, ⟨.Included 7, .Excluded 9⟩]⟩
          : RangeSet ℤ).contains 8 = true
        ↔ ∃ r ∈ (⟨[⟨.Included 0, .Excluded 3⟩, ⟨.Included 7, .Excluded 9⟩]⟩
            : RangeSet ℤ).items, r.contains 8 = true)
      ∧ (∀ (r : Range ℤ) (rest : List (Range ℤ)), SortedND (r :: rest) →
          ¬ (r.start_pos.cmpVal 8 = .lt) →
          ∀ q ∈ r :: rest, q.contains 8 = false)) :=
  ⟨by decide, C7_contains_correct _ 8 (by decide)⟩

end Rangeset
